import Mathlib

/-!
Verification development for the version-history wire codec
(`api/history/v1/message.pb.go`, gogo-protobuf generated code) and the
spec-level version-history model of the temporal repository.

Embedding conventions:
* Go byte slices are `List Nat` with each element intended `< 256`.
* Go `int64` / `int32` values are `Int`; conversions to and from the
  unsigned machine views are the explicit `toUint64` / `toInt64` /
  `toInt32` functions below (two's complement, `% 2^64` resp. `% 2^32`).
* `nil` versus empty slices are not distinguished (the generated
  `Equal` identifies them, via `bytes.Equal` and length-indexed loops).
* The backward writer `MarshalToSizedBuffer` is modelled by forward
  encoders producing the identical final byte sequence (fields are
  written back-to-front in Go, so the finished buffer holds them in
  ascending field order, which is the order used here).
* Index arithmetic (`iNdEx`, `postIndex`) is modelled with unbounded
  naturals. The decode loops carry the length `l` of the buffer the
  enclosing `Unmarshal` was called on (constant through the loop, as in
  the source), so the current `iNdEx` is `l` minus the length of the
  remaining suffix; `skipMessage` carries its accumulated `iNdEx`
  directly. The source's `postIndex < 0` / `iNdEx < 0` guards detect a
  negative two's-complement wrap of a 64-bit signed index sum whose
  operands are each in `[0, 2^63)`; such a sum is below `2^64`, so the
  wrap test is translated exactly as `2^63 ≤` the natural-number sum
  (exact for every buffer of Go-representable length, `< 2^63` bytes).
  Every other check (`shift >= 64`, negative length, truncation) is
  translated directly. `skipMessage`'s callers omit the source's
  `skippy < 0` test: `skipMessage` returns an index it has itself just
  checked to be in `[0, 2^63)`, so that test is dead in the source.
  Inside `skipMessage`, the post-switch `iNdEx < 0` test is checked
  after each of the source's index advances.
* Loops over the input buffer recurse on an explicit fuel argument so
  that every definition evaluates by `decide`; the public wrappers pass
  `data.length + 1` fuel, which is always sufficient because every
  iteration of the Go loops consumes at least one byte.
-/

/-- Two's complement view: Go `uint64(x)` for an `int64` value `x`. -/
def toUint64 (x : Int) : Nat := (x % (2 : Int) ^ 64).toNat

/-- Two's complement view: Go `int64(n)` for a `uint64` value `n`. -/
def toInt64 (n : Nat) : Int :=
  if n % 2 ^ 64 < 2 ^ 63 then ((n % 2 ^ 64 : Nat) : Int) else ((n % 2 ^ 64 : Nat) : Int) - 2 ^ 64

/-- Two's complement view: Go `int32(n)` for an unsigned value `n`. -/
def toInt32 (n : Nat) : Int :=
  if n % 2 ^ 32 < 2 ^ 31 then ((n % 2 ^ 32 : Nat) : Int) else ((n % 2 ^ 32 : Nat) : Int) - 2 ^ 32

/-- Fuel-indexed body of the varint writer; `putUvarint` instantiates the
fuel with the value itself, which always suffices. -/
def putUvarintAux : Nat → Nat → List Nat
  | 0, v => [v % 128]
  | fuel + 1, v => if v < 128 then [v] else (v % 128 + 128) :: putUvarintAux fuel (v / 128)

/-- Little-endian base-128 varint encoding, as written by
`encodeVarintMessage` (which emits `v&0x7f|0x80` groups at ascending
offsets and a final group `< 0x80`). -/
def putUvarint (v : Nat) : List Nat := putUvarintAux v v

/-- Size of a varint, from the source: `sovMessage x = (bits.Len64(x|1) + 6) / 7`;
`bits.Len64 n = Nat.log2 n + 1` for `n ≥ 1`, and `x|||1 ≥ 1`. -/
def sovMessage (x : Nat) : Nat := (Nat.log2 (x ||| 1) + 1 + 6) / 7

/-- Field `event_id` (1) and `version` (2) of `VersionHistoryItem`, both Go `int64`. -/
structure VersionHistoryItem where
  eventId : Int
  version : Int
deriving DecidableEq, Repr

/-- Field `branch_token` (1) and repeated `items` (2) of `VersionHistory`. -/
structure VersionHistory where
  branchToken : List Nat
  items : List VersionHistoryItem
deriving DecidableEq, Repr

/-- Field `current_version_history_index` (1, Go `int32`) and repeated
`histories` (2) of `VersionHistories`. -/
structure VersionHistories where
  currentVersionHistoryIndex : Int
  histories : List VersionHistory
deriving DecidableEq, Repr

/-- Bytes produced by `VersionHistoryItem.Marshal`: varint field 1 then
varint field 2, each omitted when zero (`if m.EventId != 0`, tag `0x8`;
`if m.Version != 0`, tag `0x10`). -/
def marshalVersionHistoryItem (m : VersionHistoryItem) : List Nat :=
  (if m.eventId ≠ 0 then 0x08 :: putUvarint (toUint64 m.eventId) else []) ++
  (if m.version ≠ 0 then 0x10 :: putUvarint (toUint64 m.version) else [])

/-- Bytes produced by `VersionHistory.Marshal`: length-delimited
`branch_token` (tag `0xa`, omitted when empty) then each item as a
length-delimited field 2 entry (tag `0x12`) in slice order. -/
def marshalVersionHistory (m : VersionHistory) : List Nat :=
  (if m.branchToken.length > 0 then
    0x0A :: (putUvarint m.branchToken.length ++ m.branchToken) else []) ++
  (m.items.map (fun it =>
    0x12 :: (putUvarint (marshalVersionHistoryItem it).length ++ marshalVersionHistoryItem it))).flatten

/-- Bytes produced by `VersionHistories.Marshal`: varint field 1 (tag `0x8`,
omitted when zero, written through `uint64(m.CurrentVersionHistoryIndex)`)
then each history as a length-delimited field 2 entry (tag `0x12`) in
slice order. -/
def marshalVersionHistories (m : VersionHistories) : List Nat :=
  (if m.currentVersionHistoryIndex ≠ 0 then
    0x08 :: putUvarint (toUint64 m.currentVersionHistoryIndex) else []) ++
  (m.histories.map (fun h =>
    0x12 :: (putUvarint (marshalVersionHistory h).length ++ marshalVersionHistory h))).flatten

/-- Source `VersionHistoryItem.Size`. -/
def sizeVersionHistoryItem (m : VersionHistoryItem) : Nat :=
  (if m.eventId ≠ 0 then 1 + sovMessage (toUint64 m.eventId) else 0) +
  (if m.version ≠ 0 then 1 + sovMessage (toUint64 m.version) else 0)

/-- Source `VersionHistory.Size`. -/
def sizeVersionHistory (m : VersionHistory) : Nat :=
  (if m.branchToken.length > 0 then
    1 + m.branchToken.length + sovMessage m.branchToken.length else 0) +
  (m.items.map (fun e => 1 + sizeVersionHistoryItem e + sovMessage (sizeVersionHistoryItem e))).sum

/-- Source `VersionHistories.Size`. -/
def sizeVersionHistories (m : VersionHistories) : Nat :=
  (if m.currentVersionHistoryIndex ≠ 0 then
    1 + sovMessage (toUint64 m.currentVersionHistoryIndex) else 0) +
  (m.histories.map (fun e => 1 + sizeVersionHistory e + sovMessage (sizeVersionHistory e))).sum

/-- Generated `VersionHistoryItem.Equal` (field-by-field comparison). -/
def equalVersionHistoryItem (a b : VersionHistoryItem) : Bool :=
  a.eventId == b.eventId && a.version == b.version

/-- Generated `VersionHistory.Equal`: `bytes.Equal` on tokens, then a
length check and an element-wise loop over `Items`. -/
def equalVersionHistory (a b : VersionHistory) : Bool :=
  a.branchToken == b.branchToken && a.items.length == b.items.length &&
  (a.items.zip b.items).all fun p => equalVersionHistoryItem p.1 p.2

/-- Generated `VersionHistories.Equal`: index comparison, then a length
check and an element-wise loop over `Histories`. -/
def equalVersionHistories (a b : VersionHistories) : Bool :=
  a.currentVersionHistoryIndex == b.currentVersionHistoryIndex &&
  a.histories.length == b.histories.length &&
  (a.histories.zip b.histories).all fun p => equalVersionHistory p.1 p.2

/-- Generated nil-safe getter `VersionHistoryItem.GetEventId` (a nil
receiver is `none`). -/
def getEventId : Option VersionHistoryItem → Int
  | some m => m.eventId
  | none => 0

/-- Generated nil-safe getter `VersionHistoryItem.GetVersion`. -/
def getVersion : Option VersionHistoryItem → Int
  | some m => m.version
  | none => 0

/-- Generated nil-safe getter `VersionHistory.GetBranchToken` (the nil
result slice is the empty list in this model). -/
def getBranchToken : Option VersionHistory → List Nat
  | some m => m.branchToken
  | none => []

/-- Generated nil-safe getter `VersionHistory.GetItems`. -/
def getItems : Option VersionHistory → List VersionHistoryItem
  | some m => m.items
  | none => []

/-- Generated nil-safe getter `VersionHistories.GetCurrentVersionHistoryIndex`. -/
def getCurrentVersionHistoryIndex : Option VersionHistories → Int
  | some m => m.currentVersionHistoryIndex
  | none => 0

/-- Generated nil-safe getter `VersionHistories.GetHistories`. -/
def getHistories : Option VersionHistories → List VersionHistory
  | some m => m.histories
  | none => []

/-- Protobuf field header following the spec encoding contract: a varint
holding the field number and the wire type. -/
def protoKey (fieldNum wireType : Nat) : List Nat := putUvarint (fieldNum * 8 + wireType)

/-- Spec-side wire shape of a `VersionHistoryItem`, written from the spec
words: two varint fields, `eventId` as field 1 and `version` as field 2,
zero values omitted. -/
def specWireVersionHistoryItem (m : VersionHistoryItem) : List Nat :=
  (if m.eventId = 0 then [] else protoKey 1 0 ++ putUvarint (toUint64 m.eventId)) ++
  (if m.version = 0 then [] else protoKey 2 0 ++ putUvarint (toUint64 m.version))

/-- Spec-side wire shape of a `VersionHistories`, written from the spec
words: a varint `currentIndex` field 1 (omitted when zero) followed by
each history as a length-delimited field 2 entry in sequence order. -/
def specWireVersionHistories (m : VersionHistories) : List Nat :=
  (if m.currentVersionHistoryIndex = 0 then []
   else protoKey 1 0 ++ putUvarint (toUint64 m.currentVersionHistoryIndex)) ++
  (m.histories.map (fun h =>
    protoKey 2 2 ++ (putUvarint (marshalVersionHistory h).length ++ marshalVersionHistory h))).flatten

theorem putUvarintAux_fuel_eq (f : Nat) : ∀ g v : Nat, v ≤ f → v ≤ g →
    putUvarintAux f v = putUvarintAux g v := by
  induction f with
  | zero =>
    intro g v hf _
    interval_cases v
    cases g with
    | zero => rfl
    | succ g => simp [putUvarintAux]
  | succ f ih =>
    intro g v _ hg
    cases g with
    | zero =>
      interval_cases v
      simp [putUvarintAux]
    | succ g =>
      simp only [putUvarintAux]
      by_cases h : v < 128
      · simp [h]
      · simp only [h, if_false]
        have hv : 128 ≤ v := Nat.le_of_not_lt h
        have hdf : v / 128 ≤ f := by
          have : v / 128 < v := Nat.div_lt_self (by omega) (by omega)
          omega
        have hdg : v / 128 ≤ g := by
          have : v / 128 < v := Nat.div_lt_self (by omega) (by omega)
          omega
        rw [ih g (v / 128) hdf hdg]

theorem putUvarint_unfold (v : Nat) :
    putUvarint v = if v < 128 then [v] else (v % 128 + 128) :: putUvarint (v / 128) := by
  unfold putUvarint
  cases v with
  | zero => simp [putUvarintAux]
  | succ n =>
    simp only [putUvarintAux]
    by_cases h : n + 1 < 128
    · simp [h]
    · simp only [h, if_false]
      have : (n + 1) / 128 ≤ n := by
        have : (n + 1) / 128 < n + 1 := Nat.div_lt_self (by omega) (by omega)
        omega
      rw [putUvarintAux_fuel_eq n ((n + 1) / 128) ((n + 1) / 128) this (le_refl _)]

theorem lor_one_eq (v : Nat) : v ||| 1 = if v % 2 = 0 then v + 1 else v := by
  by_cases h : v % 2 = 0
  · simp only [h, if_true]
    apply Nat.eq_of_testBit_eq
    intro i
    cases i with
    | zero =>
      simp only [Nat.testBit_or, Nat.testBit_zero]
      have : (v + 1) % 2 = 1 := by omega
      simp [this]
    | succ i =>
      rw [Nat.testBit_or, Nat.testBit_succ, Nat.testBit_succ, Nat.testBit_succ]
      have h1 : (1 : Nat) / 2 = 0 := by norm_num
      have h2 : (v + 1) / 2 = v / 2 := by omega
      simp [h1, h2, Nat.zero_testBit]
  · simp only [h, if_false]
    apply Nat.eq_of_testBit_eq
    intro i
    cases i with
    | zero =>
      simp only [Nat.testBit_or, Nat.testBit_zero]
      have : v % 2 = 1 := by omega
      simp [this]
    | succ i =>
      rw [Nat.testBit_or, Nat.testBit_succ, Nat.testBit_succ]
      have h1 : (1 : Nat) / 2 = 0 := by norm_num
      simp [h1, Nat.zero_testBit]

theorem log2_lor_one (v : Nat) (hv : 1 ≤ v) : Nat.log2 (v ||| 1) = Nat.log2 v := by
  rw [lor_one_eq]
  by_cases h : v % 2 = 0
  · simp only [h, if_true]
    have h2 : 2 ≤ v := by omega
    have hk1 : 2 ^ Nat.log2 v ≤ v := (Nat.le_log2 (by omega)).mp (le_refl _)
    have hk2 : v < 2 ^ (Nat.log2 v + 1) := (Nat.log2_lt (by omega)).mp (Nat.lt_succ_self _)
    have hmod : 2 ^ (Nat.log2 v + 1) % 2 = 0 := by
      rw [pow_succ]
      omega
    have hne : v + 1 ≠ 2 ^ (Nat.log2 v + 1) := by
      intro hEq
      omega
    apply le_antisymm
    · have hlt : v + 1 < 2 ^ (Nat.log2 v + 1) := by omega
      exact Nat.lt_succ_iff.mp ((Nat.log2_lt (by omega)).mpr hlt)
    · exact (Nat.le_log2 (by omega)).mpr (by omega)
  · rw [if_neg h]

theorem log2_div_128 (v : Nat) (hv : 128 ≤ v) : Nat.log2 (v / 128) = Nat.log2 v - 7 := by
  have hk1 : 2 ^ Nat.log2 v ≤ v := (Nat.le_log2 (by omega)).mp (le_refl _)
  have hk2 : v < 2 ^ (Nat.log2 v + 1) := (Nat.log2_lt (by omega)).mp (Nat.lt_succ_self _)
  have h7 : 7 ≤ Nat.log2 v := (Nat.le_log2 (by omega)).mpr (by norm_num; omega)
  have hpow : 2 ^ (Nat.log2 v - 7) * 128 = 2 ^ Nat.log2 v := by
    rw [show (128 : Nat) = 2 ^ 7 by norm_num, ← pow_add]
    congr 1
    omega
  have hpow2 : 2 ^ (Nat.log2 v - 7 + 1) * 128 = 2 ^ (Nat.log2 v + 1) := by
    rw [show (128 : Nat) = 2 ^ 7 by norm_num, ← pow_add]
    congr 1
    omega
  have hdiv1 : 2 ^ (Nat.log2 v - 7) ≤ v / 128 := by
    rw [Nat.le_div_iff_mul_le (by norm_num)]
    omega
  have hdiv2 : v / 128 < 2 ^ (Nat.log2 v - 7 + 1) := by
    rw [Nat.div_lt_iff_lt_mul (by norm_num)]
    omega
  have hne : v / 128 ≠ 0 := by
    have h1 : 1 * 128 ≤ v := by omega
    have : 1 ≤ v / 128 := (Nat.le_div_iff_mul_le (by norm_num)).mpr h1
    omega
  apply le_antisymm
  · exact Nat.lt_succ_iff.mp ((Nat.log2_lt hne).mpr hdiv2)
  · exact (Nat.le_log2 hne).mpr hdiv1

theorem putUvarint_length (v : Nat) : (putUvarint v).length = sovMessage v := by
  induction v using Nat.strong_induction_on with
  | _ v ih =>
    rw [putUvarint_unfold]
    by_cases h : v < 128
    · simp only [h, if_true, List.length_cons, List.length_nil]
      unfold sovMessage
      have hlt : v ||| 1 < 2 ^ 7 := Nat.or_lt_two_pow (by omega) (by norm_num)
      have hne : v ||| 1 ≠ 0 := by
        rw [lor_one_eq]
        split
        · omega
        · omega
      have : Nat.log2 (v ||| 1) < 7 := (Nat.log2_lt hne).mpr hlt
      omega
    · have h128 : 128 ≤ v := by omega
      simp only [h, if_false, List.length_cons]
      rw [ih (v / 128) (Nat.div_lt_self (by omega) (by omega))]
      unfold sovMessage
      have hv128 : 1 ≤ v / 128 := by
        have h1 : 1 * 128 ≤ v := by omega
        exact (Nat.le_div_iff_mul_le (by norm_num)).mpr h1
      rw [log2_lor_one v (by omega), log2_lor_one _ hv128, log2_div_128 v h128]
      have h7 : 7 ≤ Nat.log2 v := (Nat.le_log2 (by omega)).mpr (by norm_num; omega)
      omega

theorem marshalVersionHistoryItem_length (m : VersionHistoryItem) :
    (marshalVersionHistoryItem m).length = sizeVersionHistoryItem m := by
  unfold marshalVersionHistoryItem sizeVersionHistoryItem
  by_cases h1 : m.eventId = 0 <;> by_cases h2 : m.version = 0 <;>
    simp [h1, h2, putUvarint_length] <;> omega

theorem marshalVersionHistory_length (m : VersionHistory) :
    (marshalVersionHistory m).length = sizeVersionHistory m := by
  unfold marshalVersionHistory sizeVersionHistory
  have hmap : ∀ it : VersionHistoryItem,
      (0x12 :: (putUvarint (marshalVersionHistoryItem it).length ++
        marshalVersionHistoryItem it)).length =
      1 + sizeVersionHistoryItem it + sovMessage (sizeVersionHistoryItem it) := by
    intro it
    simp [putUvarint_length, marshalVersionHistoryItem_length]
    omega
  rw [List.length_append, List.length_flatten, List.map_map]
  simp only [Function.comp_def, hmap]
  by_cases h : m.branchToken.length > 0 <;> simp [h, putUvarint_length] <;> omega

theorem marshalVersionHistories_length (m : VersionHistories) :
    (marshalVersionHistories m).length = sizeVersionHistories m := by
  unfold marshalVersionHistories sizeVersionHistories
  have hmap : ∀ h : VersionHistory,
      (0x12 :: (putUvarint (marshalVersionHistory h).length ++
        marshalVersionHistory h)).length =
      1 + sizeVersionHistory h + sovMessage (sizeVersionHistory h) := by
    intro h
    simp [putUvarint_length, marshalVersionHistory_length]
    omega
  rw [List.length_append, List.length_flatten, List.map_map]
  simp only [Function.comp_def, hmap]
  by_cases h : m.currentVersionHistoryIndex = 0 <;> simp [h, putUvarint_length] <;> omega

/-- C9: encoding is total for `VersionHistoryItem`, `VersionHistory` and
`VersionHistories` (the model encoders are plain functions, mirroring the
fact that `Marshal` can only propagate errors from submessage marshalling,
which never errors for these types), and for every value, including values
violating the history invariants, the produced byte sequence has length
exactly `Size()`. -/
theorem marshal_total_size_exact :
    (∀ m : VersionHistoryItem, (marshalVersionHistoryItem m).length = sizeVersionHistoryItem m) ∧
    (∀ m : VersionHistory, (marshalVersionHistory m).length = sizeVersionHistory m) ∧
    (∀ m : VersionHistories, (marshalVersionHistories m).length = sizeVersionHistories m) :=
  ⟨marshalVersionHistoryItem_length, marshalVersionHistory_length, marshalVersionHistories_length⟩

/-- C10: every generated getter is total on a nil receiver and returns the
zero value: `GetEventId` and `GetVersion` return `0`, `GetBranchToken`,
`GetItems` and `GetHistories` return the nil slice (the empty list in this
model), and `GetCurrentVersionHistoryIndex` returns `0`. -/
theorem getters_nil_total :
    getEventId none = 0 ∧ getVersion none = 0 ∧ getBranchToken none = [] ∧
    getItems none = [] ∧ getCurrentVersionHistoryIndex none = 0 ∧ getHistories none = [] :=
  ⟨rfl, rfl, rfl, rfl, rfl, rfl⟩

/-- C7: the generated encoders produce exactly the wire shape declared in
the spec: `VersionHistoryItem` is varint field 1 (`eventId`) then varint
field 2 (`version`), zeroes omitted, and `VersionHistories` is varint
field 1 (`currentIndex`, omitted when zero) followed by each history as a
length-delimited field 2 entry in sequence order. -/
theorem marshal_wire_shape :
    (∀ m : VersionHistoryItem, marshalVersionHistoryItem m = specWireVersionHistoryItem m) ∧
    (∀ m : VersionHistories, marshalVersionHistories m = specWireVersionHistories m) := by
  have e1 : protoKey 1 0 = [0x08] := by decide
  have e2 : protoKey 2 0 = [0x10] := by decide
  have e3 : protoKey 2 2 = [0x12] := by decide
  constructor
  · intro m
    unfold marshalVersionHistoryItem specWireVersionHistoryItem
    rw [e1, e2]
    by_cases h1 : m.eventId = 0 <;> by_cases h2 : m.version = 0 <;> simp [h1, h2]
  · intro m
    unfold marshalVersionHistories specWireVersionHistories
    rw [e1, e3]
    have hfun : (fun h : VersionHistory =>
        [(0x12 : Nat)] ++ (putUvarint (marshalVersionHistory h).length ++ marshalVersionHistory h)) =
        (fun h : VersionHistory =>
        0x12 :: (putUvarint (marshalVersionHistory h).length ++ marshalVersionHistory h)) := by
      funext h
      rfl
    rw [hfun]
    by_cases h1 : m.currentVersionHistoryIndex = 0 <;> simp [h1]

/-- Decode-side error taxonomy of the generated `Unmarshal` functions:
`eof` is `io.ErrUnexpectedEOF`, `intOverflow` is `ErrIntOverflowMessage`,
`invalidLength` is `ErrInvalidLengthMessage`, `unexpectedEndGroup` is
`ErrUnexpectedEndOfGroupMessage`, and the remaining constructors are the
distinct `fmt.Errorf` values of the decoder. -/
inductive DecodeErr where
  | eof
  | intOverflow
  | invalidLength
  | endGroupNonGroup
  | illegalTag
  | wrongWireType
  | illegalWireType
  | unexpectedEndGroup
deriving DecidableEq, Repr

/-- Varint reader shared by every decode loop of the source: at each step
the guard `shift >= 64` is checked first (`ErrIntOverflowMessage`), then
buffer exhaustion (`io.ErrUnexpectedEOF`); the low 7 bits of the byte are
accumulated at the current shift into a `uint64` accumulator, stopping on
a byte `< 0x80`. On error the partial accumulator is carried along
because the generated code accumulates directly into the receiver field. -/
def readVarintAux (shift acc : Nat) : List Nat → Except (DecodeErr × Nat) (Nat × List Nat)
  | [] =>
    if 64 ≤ shift then .error (.intOverflow, acc) else .error (.eof, acc)
  | b :: rest =>
    if 64 ≤ shift then .error (.intOverflow, acc)
    else
      let acc2 := (acc ||| (b % 128) <<< shift) % 2 ^ 64
      if b % 256 < 128 then .ok (acc2, rest) else readVarintAux (shift + 7) acc2 rest

/-- Varint read starting with an empty accumulator. -/
def readVarint (data : List Nat) : Except (DecodeErr × Nat) (Nat × List Nat) :=
  readVarintAux 0 0 data

/-- Source `skipMessage` (fuel-indexed body): skips one complete field
starting at a tag, tracking group nesting via `depth` and the running
index `idx` (the source's `iNdEx`, which for fixed-size and
length-delimited payloads may advance past the remaining buffer — the
caller checks that). After each advance the source's post-switch
`iNdEx < 0` wrap guard is checked (`2^63 ≤` the new index, see the
header note); on `wireType = 2` the `length < 0` check precedes the
advance, as in the source. -/
def skipMessageAux : Nat → List Nat → Nat → Nat → Except DecodeErr Nat
  | 0, _, _, _ => .error .eof
  | fuel + 1, data, idx, depth =>
    match data with
    | [] => .error .eof
    | _ :: _ =>
      match readVarint data with
      | .error (e, _) => .error e
      | .ok (wire, rest) =>
        let tagLen := data.length - rest.length
        let wt := wire % 8
        if wt = 0 then
          match readVarint rest with
          | .error (e, _) => .error e
          | .ok (_, rest2) =>
            let idx2 := idx + tagLen + (rest.length - rest2.length)
            if 2 ^ 63 ≤ idx2 then .error .invalidLength
            else if depth = 0 then .ok idx2
            else skipMessageAux fuel rest2 idx2 depth
        else if wt = 1 then
          let idx2 := idx + tagLen + 8
          if 2 ^ 63 ≤ idx2 then .error .invalidLength
          else if depth = 0 then .ok idx2
          else skipMessageAux fuel (rest.drop 8) idx2 depth
        else if wt = 2 then
          match readVarint rest with
          | .error (e, _) => .error e
          | .ok (v, rest2) =>
            let len : Int := toInt64 v
            if len < 0 then .error .invalidLength
            else
              let idx2 := idx + tagLen + (rest.length - rest2.length) + len.toNat
              if 2 ^ 63 ≤ idx2 then .error .invalidLength
              else if depth = 0 then .ok idx2
              else skipMessageAux fuel (rest2.drop len.toNat) idx2 depth
        else if wt = 3 then
          let idx2 := idx + tagLen
          if 2 ^ 63 ≤ idx2 then .error .invalidLength
          else skipMessageAux fuel rest idx2 (depth + 1)
        else if wt = 4 then
          if depth = 0 then .error .unexpectedEndGroup
          else
            let idx2 := idx + tagLen
            if 2 ^ 63 ≤ idx2 then .error .invalidLength
            else if depth = 1 then .ok idx2
            else skipMessageAux fuel rest idx2 (depth - 1)
        else if wt = 5 then
          let idx2 := idx + tagLen + 4
          if 2 ^ 63 ≤ idx2 then .error .invalidLength
          else if depth = 0 then .ok idx2
          else skipMessageAux fuel (rest.drop 4) idx2 depth
        else .error .illegalWireType

/-- Source `skipMessage`; every loop iteration consumes at least the tag
byte, so `data.length + 1` fuel always suffices; `iNdEx` starts at 0. -/
def skipMessage (data : List Nat) : Except DecodeErr Nat :=
  skipMessageAux (data.length + 1) data 0 0

/-- Source `VersionHistoryItem.Unmarshal` loop body (fuel-indexed). The
receiver is threaded through and returned together with the error, if
any, because the generated code mutates the receiver in place; a varint
field decode first resets the field to `0` and then accumulates into it,
so a mid-varint error leaves the partial accumulator in the field. -/
def unmarshalVersionHistoryItemAux :
    Nat → Nat → VersionHistoryItem → List Nat → VersionHistoryItem × Option DecodeErr
  | 0, _, m, _ => (m, some .eof)
  | fuel + 1, l, m, data =>
    match data with
    | [] => (m, none)
    | _ :: _ =>
      match readVarint data with
      | .error (e, _) => (m, some e)
      | .ok (wire, rest) =>
        let fieldNum : Int := toInt32 (wire >>> 3)
        let wireType : Nat := wire % 8
        if wireType = 4 then (m, some .endGroupNonGroup)
        else if fieldNum ≤ 0 then (m, some .illegalTag)
        else if fieldNum = 1 then
          if wireType ≠ 0 then (m, some .wrongWireType)
          else
            match readVarint rest with
            | .error (e, acc) => ({ m with eventId := toInt64 acc }, some e)
            | .ok (v, rest2) =>
              unmarshalVersionHistoryItemAux fuel l { m with eventId := toInt64 v } rest2
        else if fieldNum = 2 then
          if wireType ≠ 0 then (m, some .wrongWireType)
          else
            match readVarint rest with
            | .error (e, acc) => ({ m with version := toInt64 acc }, some e)
            | .ok (v, rest2) =>
              unmarshalVersionHistoryItemAux fuel l { m with version := toInt64 v } rest2
        else
          match skipMessage data with
          | .error e => (m, some e)
          | .ok skippy =>
            if 2 ^ 63 ≤ l - data.length + skippy then (m, some .invalidLength)
            else if skippy > data.length then (m, some .eof)
            else unmarshalVersionHistoryItemAux fuel l m (data.drop skippy)

/-- Source `VersionHistoryItem.Unmarshal` (`l` is the buffer length, as
in the source). -/
def unmarshalVersionHistoryItem (m : VersionHistoryItem) (data : List Nat) :
    VersionHistoryItem × Option DecodeErr :=
  unmarshalVersionHistoryItemAux (data.length + 1) data.length m data

/-- Source `VersionHistory.Unmarshal` loop body (fuel-indexed). For a
repeated `items` entry the generated code first appends a fresh zero item
and then unmarshals into it in place, so on a nested error the partially
decoded element stays appended. -/
def unmarshalVersionHistoryAux :
    Nat → Nat → VersionHistory → List Nat → VersionHistory × Option DecodeErr
  | 0, _, m, _ => (m, some .eof)
  | fuel + 1, l, m, data =>
    match data with
    | [] => (m, none)
    | _ :: _ =>
      match readVarint data with
      | .error (e, _) => (m, some e)
      | .ok (wire, rest) =>
        let fieldNum : Int := toInt32 (wire >>> 3)
        let wireType : Nat := wire % 8
        if wireType = 4 then (m, some .endGroupNonGroup)
        else if fieldNum ≤ 0 then (m, some .illegalTag)
        else if fieldNum = 1 then
          if wireType ≠ 2 then (m, some .wrongWireType)
          else
            match readVarint rest with
            | .error (e, _) => (m, some e)
            | .ok (v, rest2) =>
              let byteLen : Int := toInt64 v
              if byteLen < 0 then (m, some .invalidLength)
              else if 2 ^ 63 ≤ l - rest2.length + byteLen.toNat then (m, some .invalidLength)
              else if byteLen.toNat > rest2.length then (m, some .eof)
              else
                unmarshalVersionHistoryAux fuel l
                  { m with branchToken := rest2.take byteLen.toNat }
                  (rest2.drop byteLen.toNat)
        else if fieldNum = 2 then
          if wireType ≠ 2 then (m, some .wrongWireType)
          else
            match readVarint rest with
            | .error (e, _) => (m, some e)
            | .ok (v, rest2) =>
              let msglen : Int := toInt64 v
              if msglen < 0 then (m, some .invalidLength)
              else if 2 ^ 63 ≤ l - rest2.length + msglen.toNat then (m, some .invalidLength)
              else if msglen.toNat > rest2.length then (m, some .eof)
              else
                let inner := unmarshalVersionHistoryItem ⟨0, 0⟩ (rest2.take msglen.toNat)
                let m2 := { m with items := m.items ++ [inner.1] }
                match inner.2 with
                | some e => (m2, some e)
                | none => unmarshalVersionHistoryAux fuel l m2 (rest2.drop msglen.toNat)
        else
          match skipMessage data with
          | .error e => (m, some e)
          | .ok skippy =>
            if 2 ^ 63 ≤ l - data.length + skippy then (m, some .invalidLength)
            else if skippy > data.length then (m, some .eof)
            else unmarshalVersionHistoryAux fuel l m (data.drop skippy)

/-- Source `VersionHistory.Unmarshal` (`l` is the buffer length; the
current `iNdEx` of the source is `l` minus the remaining suffix length,
and `postIndex < 0` is the wrap test `2^63 ≤ iNdEx + byteLen`). -/
def unmarshalVersionHistory (m : VersionHistory) (data : List Nat) :
    VersionHistory × Option DecodeErr :=
  unmarshalVersionHistoryAux (data.length + 1) data.length m data

/-- Source `VersionHistories.Unmarshal` loop body (fuel-indexed); field 1
is the `int32` varint `CurrentVersionHistoryIndex` (per-byte accumulation
into an `int32` is the `toInt32` image of the 64-bit accumulator, since
shifting past bit 31 contributes nothing mod `2^32`), field 2 appends one
`VersionHistory` per entry. -/
def unmarshalVersionHistoriesAux :
    Nat → Nat → VersionHistories → List Nat → VersionHistories × Option DecodeErr
  | 0, _, m, _ => (m, some .eof)
  | fuel + 1, l, m, data =>
    match data with
    | [] => (m, none)
    | _ :: _ =>
      match readVarint data with
      | .error (e, _) => (m, some e)
      | .ok (wire, rest) =>
        let fieldNum : Int := toInt32 (wire >>> 3)
        let wireType : Nat := wire % 8
        if wireType = 4 then (m, some .endGroupNonGroup)
        else if fieldNum ≤ 0 then (m, some .illegalTag)
        else if fieldNum = 1 then
          if wireType ≠ 0 then (m, some .wrongWireType)
          else
            match readVarint rest with
            | .error (e, acc) =>
              ({ m with currentVersionHistoryIndex := toInt32 acc }, some e)
            | .ok (v, rest2) =>
              unmarshalVersionHistoriesAux fuel l
                { m with currentVersionHistoryIndex := toInt32 v } rest2
        else if fieldNum = 2 then
          if wireType ≠ 2 then (m, some .wrongWireType)
          else
            match readVarint rest with
            | .error (e, _) => (m, some e)
            | .ok (v, rest2) =>
              let msglen : Int := toInt64 v
              if msglen < 0 then (m, some .invalidLength)
              else if 2 ^ 63 ≤ l - rest2.length + msglen.toNat then (m, some .invalidLength)
              else if msglen.toNat > rest2.length then (m, some .eof)
              else
                let inner := unmarshalVersionHistory ⟨[], []⟩ (rest2.take msglen.toNat)
                let m2 := { m with histories := m.histories ++ [inner.1] }
                match inner.2 with
                | some e => (m2, some e)
                | none => unmarshalVersionHistoriesAux fuel l m2 (rest2.drop msglen.toNat)
        else
          match skipMessage data with
          | .error e => (m, some e)
          | .ok skippy =>
            if 2 ^ 63 ≤ l - data.length + skippy then (m, some .invalidLength)
            else if skippy > data.length then (m, some .eof)
            else unmarshalVersionHistoriesAux fuel l m (data.drop skippy)

/-- Source `VersionHistories.Unmarshal` (`l` is the buffer length, as in
the source; see `unmarshalVersionHistory` for the index-wrap guards). -/
def unmarshalVersionHistories (m : VersionHistories) (data : List Nat) :
    VersionHistories × Option DecodeErr :=
  unmarshalVersionHistoriesAux (data.length + 1) data.length m data

theorem readVarintAux_consumes : ∀ (data : List Nat) (shift acc v : Nat) (rest : List Nat),
    readVarintAux shift acc data = .ok (v, rest) → rest.length < data.length := by
  intro data
  induction data with
  | nil =>
    intro shift acc v rest h
    unfold readVarintAux at h
    split at h <;> simp_all
  | cons b tail ih =>
    intro shift acc v rest h
    unfold readVarintAux at h
    split at h
    · simp_all
    · split at h
      · simp only [Except.ok.injEq, Prod.mk.injEq] at h
        simp [← h.2]
      · exact Nat.lt_succ_of_lt (ih _ _ _ _ h)

theorem readVarint_consumes (data : List Nat) (v : Nat) (rest : List Nat)
    (h : readVarint data = .ok (v, rest)) : rest.length < data.length :=
  readVarintAux_consumes data 0 0 v rest h

theorem varint_accum_step (acc w shift : Nat) :
    ((acc ||| (w % 128) <<< shift) % 2 ^ 64 ||| (w / 128) <<< (shift + 7)) % 2 ^ 64 =
    (acc ||| w <<< shift) % 2 ^ 64 := by
  have h128 : (128 : Nat) = 2 ^ 7 := by norm_num
  rw [h128, ← Nat.shiftRight_eq_div_pow]
  apply Nat.eq_of_testBit_eq
  intro i
  simp only [Nat.testBit_mod_two_pow, Nat.testBit_or, Nat.testBit_shiftLeft,
    Nat.testBit_shiftRight]
  by_cases hi : i < 64
  · simp only [hi, decide_True, Bool.true_and]
    by_cases hs : shift ≤ i
    · by_cases hs7 : shift + 7 ≤ i
      · have h1 : ¬ (i - shift < 7) := by omega
        have h2 : 7 + (i - (shift + 7)) = i - shift := by omega
        simp [hs, hs7, h1, h2]
      · have h1 : i - shift < 7 := by omega
        simp [hs, hs7, h1]
    · have hs7 : ¬ (shift + 7 ≤ i) := by omega
      simp [hs, hs7]
  · simp [hi]

theorem readVarintAux_putUvarint :
    ∀ (w shift acc : Nat) (rest : List Nat), shift < 64 → w < 2 ^ (64 - shift) →
    readVarintAux shift acc (putUvarint w ++ rest) =
      .ok ((acc ||| w <<< shift) % 2 ^ 64, rest) := by
  intro w
  induction w using Nat.strong_induction_on with
  | _ w ih =>
    intro shift acc rest hshift hw
    rw [putUvarint_unfold]
    by_cases h : w < 128
    · simp only [h, if_true, List.cons_append, List.nil_append]
      unfold readVarintAux
      rw [if_neg (by omega)]
      have hb1 : w % 128 = w := Nat.mod_eq_of_lt h
      have hb2 : w % 256 = w := Nat.mod_eq_of_lt (by omega)
      rw [if_pos (by omega)]
      rw [hb1]
    · simp only [h, if_false, List.cons_append]
      unfold readVarintAux
      rw [if_neg (by omega)]
      have hb2 : (w % 128 + 128) % 256 = w % 128 + 128 := Nat.mod_eq_of_lt (by omega)
      rw [if_neg (by omega)]
      have hb1 : (w % 128 + 128) % 128 = w % 128 := by omega
      rw [hb1]
      have hgap : 7 < 64 - shift := by
        by_contra hcon
        have : 2 ^ (64 - shift) ≤ 2 ^ 7 := Nat.pow_le_pow_right (by norm_num) (by omega)
        omega
      have hdiv : w / 128 < 2 ^ (64 - (shift + 7)) := by
        rw [Nat.div_lt_iff_lt_mul (by norm_num)]
        have : 2 ^ (64 - (shift + 7)) * 128 = 2 ^ (64 - shift) := by
          rw [show (128 : Nat) = 2 ^ 7 by norm_num, ← pow_add]
          congr 1
          omega
        omega
      rw [ih (w / 128) (Nat.div_lt_self (by omega) (by omega)) (shift + 7) _ rest
        (by omega) hdiv]
      rw [varint_accum_step]

theorem readVarint_putUvarint (w : Nat) (rest : List Nat) (hw : w < 2 ^ 64) :
    readVarint (putUvarint w ++ rest) = .ok (w, rest) := by
  unfold readVarint
  rw [readVarintAux_putUvarint w 0 0 rest (by norm_num) (by simpa using hw)]
  rw [Nat.zero_or, Nat.shiftLeft_zero, Nat.mod_eq_of_lt hw]

theorem skipMessageAux_pos :
    ∀ (fuel : Nat) (data : List Nat) (idx depth n : Nat),
    skipMessageAux fuel data idx depth = .ok n → idx < n := by
  intro fuel
  induction fuel with
  | zero =>
    intro data idx depth n h
    simp [skipMessageAux] at h
  | succ fuel ih =>
    intro data idx depth n h
    cases data with
    | nil => simp [skipMessageAux] at h
    | cons b tail =>
      simp only [skipMessageAux] at h
      cases hrv : readVarint (b :: tail) with
      | error e => rw [hrv] at h; simp at h
      | ok p =>
        obtain ⟨wire, rest⟩ := p
        rw [hrv] at h
        have htag : 1 ≤ (b :: tail).length - rest.length := by
          have := readVarint_consumes _ _ _ hrv
          simp at this ⊢
          omega
        simp only at h
        repeat' (split at h)
        all_goals try simp only [Except.ok.injEq, reduceCtorEq] at h
        all_goals first
          | omega
          | (have hrec := ih _ _ _ _ h; omega)

theorem skipMessage_pos (data : List Nat) (n : Nat) (h : skipMessage data = .ok n) : 1 ≤ n :=
  skipMessageAux_pos _ _ _ _ _ h

theorem unmarshalVersionHistoryItemAux_fuel_eq :
    ∀ (f g l : Nat) (m : VersionHistoryItem) (data : List Nat),
    data.length < f → data.length < g →
    unmarshalVersionHistoryItemAux f l m data = unmarshalVersionHistoryItemAux g l m data := by
  intro f
  induction f with
  | zero => intro g l m data hf hg; omega
  | succ f ih =>
    intro g l m data hf hg
    cases g with
    | zero => omega
    | succ g =>
      cases data with
      | nil => simp [unmarshalVersionHistoryItemAux]
      | cons b tail =>
        simp only [unmarshalVersionHistoryItemAux]
        cases hrv : readVarint (b :: tail) with
        | error e => rfl
        | ok p =>
          obtain ⟨wire, rest⟩ := p
          have hlen : rest.length < (b :: tail).length := readVarint_consumes _ _ _ hrv
          simp only
          by_cases h4 : wire % 8 = 4
          · simp [h4]
          · simp only [h4, if_false]
            by_cases ht : toInt32 (wire >>> 3) ≤ 0
            · simp [ht]
            · simp only [ht, if_false]
              by_cases hf1 : toInt32 (wire >>> 3) = 1
              · simp only [hf1, if_true]
                by_cases hw0 : wire % 8 ≠ 0
                · simp [hw0]
                · simp only [hw0, if_false]
                  cases hrv2 : readVarint rest with
                  | error e2 => rfl
                  | ok q =>
                    obtain ⟨v, rest2⟩ := q
                    have h2 := readVarint_consumes _ _ _ hrv2
                    exact ih g l _ rest2 (by simp at hlen hf ⊢; omega)
                      (by simp at hlen hg ⊢; omega)
              · simp only [hf1, if_false]
                by_cases hf2 : toInt32 (wire >>> 3) = 2
                · simp only [hf2, if_true]
                  by_cases hw0 : wire % 8 ≠ 0
                  · simp [hw0]
                  · simp only [hw0, if_false]
                    cases hrv2 : readVarint rest with
                    | error e2 => rfl
                    | ok q =>
                      obtain ⟨v, rest2⟩ := q
                      have h2 := readVarint_consumes _ _ _ hrv2
                      exact ih g l _ rest2 (by simp at hlen hf ⊢; omega)
                        (by simp at hlen hg ⊢; omega)
                · simp only [hf2, if_false]
                  cases hsk : skipMessage (b :: tail) with
                  | error e2 => rfl
                  | ok skippy =>
                    have hpos := skipMessage_pos _ _ hsk
                    simp only
                    by_cases hov : 2 ^ 63 ≤ l - (b :: tail).length + skippy
                    · rw [if_pos hov, if_pos hov]
                    · rw [if_neg hov, if_neg hov]
                      by_cases hbig : tail.length + 1 < skippy
                      · simp [hbig]
                      · simp only [hbig, if_false, gt_iff_lt, List.length_cons]
                        apply ih g l _ _
                        · simp at hf ⊢
                          omega
                        · simp at hg ⊢
                          omega

theorem unmarshalVersionHistoryAux_fuel_eq :
    ∀ (f g l : Nat) (m : VersionHistory) (data : List Nat),
    data.length < f → data.length < g →
    unmarshalVersionHistoryAux f l m data = unmarshalVersionHistoryAux g l m data := by
  intro f
  induction f with
  | zero => intro g l m data hf hg; omega
  | succ f ih =>
    intro g l m data hf hg
    cases g with
    | zero => omega
    | succ g =>
      cases data with
      | nil => simp [unmarshalVersionHistoryAux]
      | cons b tail =>
        simp only [unmarshalVersionHistoryAux]
        cases hrv : readVarint (b :: tail) with
        | error e => rfl
        | ok p =>
          obtain ⟨wire, rest⟩ := p
          have hlen : rest.length < (b :: tail).length := readVarint_consumes _ _ _ hrv
          simp only
          by_cases h4 : wire % 8 = 4
          · simp [h4]
          · simp only [h4, if_false]
            by_cases ht : toInt32 (wire >>> 3) ≤ 0
            · simp [ht]
            · simp only [ht, if_false]
              by_cases hf1 : toInt32 (wire >>> 3) = 1
              · simp only [hf1, if_true]
                by_cases hw2 : wire % 8 ≠ 2
                · simp [hw2]
                · simp only [hw2, if_false]
                  cases hrv2 : readVarint rest with
                  | error e2 => rfl
                  | ok q =>
                    obtain ⟨v, rest2⟩ := q
                    have h2 := readVarint_consumes _ _ _ hrv2
                    simp only
                    by_cases hneg : toInt64 v < 0
                    · simp [hneg]
                    · simp only [hneg, if_false]
                      by_cases hov : 2 ^ 63 ≤ l - rest2.length + (toInt64 v).toNat
                      · rw [if_pos hov, if_pos hov]
                      · rw [if_neg hov, if_neg hov]
                        by_cases hbig : (toInt64 v).toNat > rest2.length
                        · simp [hbig]
                        · simp only [hbig, if_false]
                          apply ih g l _ _
                          · simp at hlen hf ⊢
                            omega
                          · simp at hlen hg ⊢
                            omega
              · simp only [hf1, if_false]
                by_cases hf2 : toInt32 (wire >>> 3) = 2
                · simp only [hf2, if_true]
                  by_cases hw2 : wire % 8 ≠ 2
                  · simp [hw2]
                  · simp only [hw2, if_false]
                    cases hrv2 : readVarint rest with
                    | error e2 => rfl
                    | ok q =>
                      obtain ⟨v, rest2⟩ := q
                      have h2 := readVarint_consumes _ _ _ hrv2
                      simp only
                      by_cases hneg : toInt64 v < 0
                      · simp [hneg]
                      · simp only [hneg, if_false]
                        by_cases hov : 2 ^ 63 ≤ l - rest2.length + (toInt64 v).toNat
                        · rw [if_pos hov, if_pos hov]
                        · rw [if_neg hov, if_neg hov]
                          by_cases hbig : (toInt64 v).toNat > rest2.length
                          · simp [hbig]
                          · simp only [hbig, if_false]
                            cases hI :
                              (unmarshalVersionHistoryItem ⟨0, 0⟩
                                (rest2.take (toInt64 v).toNat)).2 with
                            | some e2 => rfl
                            | none =>
                              apply ih g l _ _
                              · simp at hlen hf ⊢
                                omega
                              · simp at hlen hg ⊢
                                omega
                · simp only [hf2, if_false]
                  cases hsk : skipMessage (b :: tail) with
                  | error e2 => rfl
                  | ok skippy =>
                    have hpos := skipMessage_pos _ _ hsk
                    simp only
                    by_cases hov : 2 ^ 63 ≤ l - (b :: tail).length + skippy
                    · rw [if_pos hov, if_pos hov]
                    · rw [if_neg hov, if_neg hov]
                      by_cases hbig : tail.length + 1 < skippy
                      · simp [hbig]
                      · simp only [hbig, if_false, gt_iff_lt, List.length_cons]
                        apply ih g l _ _
                        · simp at hf ⊢
                          omega
                        · simp at hg ⊢
                          omega

theorem unmarshalVersionHistoriesAux_fuel_eq :
    ∀ (f g l : Nat) (m : VersionHistories) (data : List Nat),
    data.length < f → data.length < g →
    unmarshalVersionHistoriesAux f l m data = unmarshalVersionHistoriesAux g l m data := by
  intro f
  induction f with
  | zero => intro g l m data hf hg; omega
  | succ f ih =>
    intro g l m data hf hg
    cases g with
    | zero => omega
    | succ g =>
      cases data with
      | nil => simp [unmarshalVersionHistoriesAux]
      | cons b tail =>
        simp only [unmarshalVersionHistoriesAux]
        cases hrv : readVarint (b :: tail) with
        | error e => rfl
        | ok p =>
          obtain ⟨wire, rest⟩ := p
          have hlen : rest.length < (b :: tail).length := readVarint_consumes _ _ _ hrv
          simp only
          by_cases h4 : wire % 8 = 4
          · simp [h4]
          · simp only [h4, if_false]
            by_cases ht : toInt32 (wire >>> 3) ≤ 0
            · simp [ht]
            · simp only [ht, if_false]
              by_cases hf1 : toInt32 (wire >>> 3) = 1
              · simp only [hf1, if_true]
                by_cases hw0 : wire % 8 ≠ 0
                · simp [hw0]
                · simp only [hw0, if_false]
                  cases hrv2 : readVarint rest with
                  | error e2 => rfl
                  | ok q =>
                    obtain ⟨v, rest2⟩ := q
                    have h2 := readVarint_consumes _ _ _ hrv2
                    exact ih g l _ rest2 (by simp at hlen hf ⊢; omega)
                      (by simp at hlen hg ⊢; omega)
              · simp only [hf1, if_false]
                by_cases hf2 : toInt32 (wire >>> 3) = 2
                · simp only [hf2, if_true]
                  by_cases hw2 : wire % 8 ≠ 2
                  · simp [hw2]
                  · simp only [hw2, if_false]
                    cases hrv2 : readVarint rest with
                    | error e2 => rfl
                    | ok q =>
                      obtain ⟨v, rest2⟩ := q
                      have h2 := readVarint_consumes _ _ _ hrv2
                      simp only
                      by_cases hneg : toInt64 v < 0
                      · simp [hneg]
                      · simp only [hneg, if_false]
                        by_cases hov : 2 ^ 63 ≤ l - rest2.length + (toInt64 v).toNat
                        · rw [if_pos hov, if_pos hov]
                        · rw [if_neg hov, if_neg hov]
                          by_cases hbig : (toInt64 v).toNat > rest2.length
                          · simp [hbig]
                          · simp only [hbig, if_false]
                            cases hI :
                              (unmarshalVersionHistory ⟨[], []⟩
                                (rest2.take (toInt64 v).toNat)).2 with
                            | some e2 => rfl
                            | none =>
                              apply ih g l _ _
                              · simp at hlen hf ⊢
                                omega
                              · simp at hlen hg ⊢
                                omega
                · simp only [hf2, if_false]
                  cases hsk : skipMessage (b :: tail) with
                  | error e2 => rfl
                  | ok skippy =>
                    have hpos := skipMessage_pos _ _ hsk
                    simp only
                    by_cases hov : 2 ^ 63 ≤ l - (b :: tail).length + skippy
                    · rw [if_pos hov, if_pos hov]
                    · rw [if_neg hov, if_neg hov]
                      by_cases hbig : tail.length + 1 < skippy
                      · simp [hbig]
                      · simp only [hbig, if_false, gt_iff_lt, List.length_cons]
                        apply ih g l _ _
                        · simp at hf ⊢
                          omega
                        · simp at hg ⊢
                          omega

theorem unmarshalVersionHistoryItemAux_l_irrel :
    ∀ (fuel l1 l2 : Nat) (m : VersionHistoryItem) (data : List Nat),
    data.length ≤ l1 → l1 < 2 ^ 63 → data.length ≤ l2 → l2 < 2 ^ 63 →
    (unmarshalVersionHistoryItemAux fuel l2 m data).2 = none →
    unmarshalVersionHistoryItemAux fuel l1 m data =
      unmarshalVersionHistoryItemAux fuel l2 m data := by
  intro fuel
  induction fuel with
  | zero => intro l1 l2 m data hd1 hl1 hd2 hl2 hnone; rfl
  | succ fuel ih =>
    intro l1 l2 m data hd1 hl1 hd2 hl2 hnone
    cases data with
    | nil => rfl
    | cons b tail =>
      simp only [unmarshalVersionHistoryItemAux] at hnone ⊢
      cases hrv : readVarint (b :: tail) with
      | error e => rfl
      | ok p =>
        obtain ⟨wire, rest⟩ := p
        rw [hrv] at hnone
        have hlen : rest.length < (b :: tail).length := readVarint_consumes _ _ _ hrv
        simp only at hnone ⊢
        by_cases h4 : wire % 8 = 4
        · simp [h4]
        · simp only [h4, if_false] at hnone ⊢
          by_cases ht : toInt32 (wire >>> 3) ≤ 0
          · simp [ht]
          · simp only [ht, if_false] at hnone ⊢
            by_cases hf1 : toInt32 (wire >>> 3) = 1
            · simp only [hf1, if_true] at hnone ⊢
              by_cases hw0 : wire % 8 ≠ 0
              · simp [hw0]
              · simp only [hw0, if_false] at hnone ⊢
                cases hrv2 : readVarint rest with
                | error e2 => rfl
                | ok q =>
                  obtain ⟨v, rest2⟩ := q
                  rw [hrv2] at hnone
                  have h2 := readVarint_consumes _ _ _ hrv2
                  simp only at hnone ⊢
                  exact ih l1 l2 _ rest2 (by simp at hlen hd1 ⊢; omega) hl1
                    (by simp at hlen hd2 ⊢; omega) hl2 hnone
            · simp only [hf1, if_false] at hnone ⊢
              by_cases hf2 : toInt32 (wire >>> 3) = 2
              · simp only [hf2, if_true] at hnone ⊢
                by_cases hw0 : wire % 8 ≠ 0
                · simp [hw0]
                · simp only [hw0, if_false] at hnone ⊢
                  cases hrv2 : readVarint rest with
                  | error e2 => rfl
                  | ok q =>
                    obtain ⟨v, rest2⟩ := q
                    rw [hrv2] at hnone
                    have h2 := readVarint_consumes _ _ _ hrv2
                    simp only at hnone ⊢
                    exact ih l1 l2 _ rest2 (by simp at hlen hd1 ⊢; omega) hl1
                      (by simp at hlen hd2 ⊢; omega) hl2 hnone
              · simp only [hf2, if_false] at hnone ⊢
                cases hsk : skipMessage (b :: tail) with
                | error e2 => rfl
                | ok skippy =>
                  rw [hsk] at hnone
                  simp only at hnone ⊢
                  by_cases hov2 : 2 ^ 63 ≤ l2 - (b :: tail).length + skippy
                  · rw [if_pos hov2] at hnone
                    simp at hnone
                  · rw [if_neg hov2] at hnone
                    by_cases hbig : skippy > (b :: tail).length
                    · rw [if_pos hbig] at hnone
                      simp at hnone
                    · rw [if_neg hbig] at hnone
                      have hov1 : ¬ (2 ^ 63 ≤ l1 - (b :: tail).length + skippy) := by
                        simp at hbig hd1 ⊢
                        omega
                      rw [if_neg hov1, if_neg hov2, if_neg hbig, if_neg hbig]
                      exact ih l1 l2 m _ (by simp at hd1 ⊢; omega) hl1
                        (by simp at hd2 ⊢; omega) hl2 hnone

theorem unmarshalVersionHistoryAux_l_irrel :
    ∀ (fuel l1 l2 : Nat) (m : VersionHistory) (data : List Nat),
    data.length ≤ l1 → l1 < 2 ^ 63 → data.length ≤ l2 → l2 < 2 ^ 63 →
    (unmarshalVersionHistoryAux fuel l2 m data).2 = none →
    unmarshalVersionHistoryAux fuel l1 m data =
      unmarshalVersionHistoryAux fuel l2 m data := by
  intro fuel
  induction fuel with
  | zero => intro l1 l2 m data hd1 hl1 hd2 hl2 hnone; rfl
  | succ fuel ih =>
    intro l1 l2 m data hd1 hl1 hd2 hl2 hnone
    cases data with
    | nil => rfl
    | cons b tail =>
      simp only [unmarshalVersionHistoryAux] at hnone ⊢
      cases hrv : readVarint (b :: tail) with
      | error e => rfl
      | ok p =>
        obtain ⟨wire, rest⟩ := p
        rw [hrv] at hnone
        have hlen : rest.length < (b :: tail).length := readVarint_consumes _ _ _ hrv
        simp only at hnone ⊢
        by_cases h4 : wire % 8 = 4
        · simp [h4]
        · simp only [h4, if_false] at hnone ⊢
          by_cases ht : toInt32 (wire >>> 3) ≤ 0
          · simp [ht]
          · simp only [ht, if_false] at hnone ⊢
            by_cases hf1 : toInt32 (wire >>> 3) = 1
            · simp only [hf1, if_true] at hnone ⊢
              by_cases hw2 : wire % 8 ≠ 2
              · simp [hw2]
              · simp only [hw2, if_false] at hnone ⊢
                cases hrv2 : readVarint rest with
                | error e2 => rfl
                | ok q =>
                  obtain ⟨v, rest2⟩ := q
                  rw [hrv2] at hnone
                  have h2 := readVarint_consumes _ _ _ hrv2
                  simp only at hnone ⊢
                  by_cases hneg : toInt64 v < 0
                  · simp [hneg]
                  · simp only [hneg, if_false] at hnone ⊢
                    by_cases hov2 : 2 ^ 63 ≤ l2 - rest2.length + (toInt64 v).toNat
                    · rw [if_pos hov2] at hnone
                      simp at hnone
                    · rw [if_neg hov2] at hnone
                      by_cases hbig : (toInt64 v).toNat > rest2.length
                      · rw [if_pos hbig] at hnone
                        simp at hnone
                      · rw [if_neg hbig] at hnone
                        have hov1 : ¬ (2 ^ 63 ≤ l1 - rest2.length + (toInt64 v).toNat) := by
                          simp at hbig
                          have hr2 : rest2.length ≤ l1 := by
                            simp at hlen hd1
                            omega
                          omega
                        rw [if_neg hov1, if_neg hov2, if_neg hbig, if_neg hbig]
                        exact ih l1 l2 _ _ (by simp at hlen hd1 ⊢; omega) hl1
                          (by simp at hlen hd2 ⊢; omega) hl2 hnone
            · simp only [hf1, if_false] at hnone ⊢
              by_cases hf2 : toInt32 (wire >>> 3) = 2
              · simp only [hf2, if_true] at hnone ⊢
                by_cases hw2 : wire % 8 ≠ 2
                · simp [hw2]
                · simp only [hw2, if_false] at hnone ⊢
                  cases hrv2 : readVarint rest with
                  | error e2 => rfl
                  | ok q =>
                    obtain ⟨v, rest2⟩ := q
                    rw [hrv2] at hnone
                    have h2 := readVarint_consumes _ _ _ hrv2
                    simp only at hnone ⊢
                    by_cases hneg : toInt64 v < 0
                    · simp [hneg]
                    · simp only [hneg, if_false] at hnone ⊢
                      by_cases hov2 : 2 ^ 63 ≤ l2 - rest2.length + (toInt64 v).toNat
                      · rw [if_pos hov2] at hnone
                        simp at hnone
                      · rw [if_neg hov2] at hnone
                        by_cases hbig : (toInt64 v).toNat > rest2.length
                        · rw [if_pos hbig] at hnone
                          simp at hnone
                        · rw [if_neg hbig] at hnone
                          have hov1 : ¬ (2 ^ 63 ≤ l1 - rest2.length + (toInt64 v).toNat) := by
                            simp at hbig
                            have hr2 : rest2.length ≤ l1 := by
                              simp at hlen hd1
                              omega
                            omega
                          rw [if_neg hov1, if_neg hov2, if_neg hbig, if_neg hbig]
                          cases hI : (unmarshalVersionHistoryItem ⟨0, 0⟩
                              (rest2.take (toInt64 v).toNat)).2 with
                          | some e2 => rfl
                          | none =>
                            rw [hI] at hnone
                            simp only at hnone ⊢
                            exact ih l1 l2 _ _ (by simp at hlen hd1 ⊢; omega) hl1
                              (by simp at hlen hd2 ⊢; omega) hl2 hnone
              · simp only [hf2, if_false] at hnone ⊢
                cases hsk : skipMessage (b :: tail) with
                | error e2 => rfl
                | ok skippy =>
                  rw [hsk] at hnone
                  simp only at hnone ⊢
                  by_cases hov2 : 2 ^ 63 ≤ l2 - (b :: tail).length + skippy
                  · rw [if_pos hov2] at hnone
                    simp at hnone
                  · rw [if_neg hov2] at hnone
                    by_cases hbig : skippy > (b :: tail).length
                    · rw [if_pos hbig] at hnone
                      simp at hnone
                    · rw [if_neg hbig] at hnone
                      have hov1 : ¬ (2 ^ 63 ≤ l1 - (b :: tail).length + skippy) := by
                        simp at hbig hd1 ⊢
                        omega
                      rw [if_neg hov1, if_neg hov2, if_neg hbig, if_neg hbig]
                      exact ih l1 l2 m _ (by simp at hd1 ⊢; omega) hl1
                        (by simp at hd2 ⊢; omega) hl2 hnone

theorem unmarshalVersionHistoriesAux_l_irrel :
    ∀ (fuel l1 l2 : Nat) (m : VersionHistories) (data : List Nat),
    data.length ≤ l1 → l1 < 2 ^ 63 → data.length ≤ l2 → l2 < 2 ^ 63 →
    (unmarshalVersionHistoriesAux fuel l2 m data).2 = none →
    unmarshalVersionHistoriesAux fuel l1 m data =
      unmarshalVersionHistoriesAux fuel l2 m data := by
  intro fuel
  induction fuel with
  | zero => intro l1 l2 m data hd1 hl1 hd2 hl2 hnone; rfl
  | succ fuel ih =>
    intro l1 l2 m data hd1 hl1 hd2 hl2 hnone
    cases data with
    | nil => rfl
    | cons b tail =>
      simp only [unmarshalVersionHistoriesAux] at hnone ⊢
      cases hrv : readVarint (b :: tail) with
      | error e => rfl
      | ok p =>
        obtain ⟨wire, rest⟩ := p
        rw [hrv] at hnone
        have hlen : rest.length < (b :: tail).length := readVarint_consumes _ _ _ hrv
        simp only at hnone ⊢
        by_cases h4 : wire % 8 = 4
        · simp [h4]
        · simp only [h4, if_false] at hnone ⊢
          by_cases ht : toInt32 (wire >>> 3) ≤ 0
          · simp [ht]
          · simp only [ht, if_false] at hnone ⊢
            by_cases hf1 : toInt32 (wire >>> 3) = 1
            · simp only [hf1, if_true] at hnone ⊢
              by_cases hw0 : wire % 8 ≠ 0
              · simp [hw0]
              · simp only [hw0, if_false] at hnone ⊢
                cases hrv2 : readVarint rest with
                | error e2 => rfl
                | ok q =>
                  obtain ⟨v, rest2⟩ := q
                  rw [hrv2] at hnone
                  have h2 := readVarint_consumes _ _ _ hrv2
                  simp only at hnone ⊢
                  exact ih l1 l2 _ rest2 (by simp at hlen hd1 ⊢; omega) hl1
                    (by simp at hlen hd2 ⊢; omega) hl2 hnone
            · simp only [hf1, if_false] at hnone ⊢
              by_cases hf2 : toInt32 (wire >>> 3) = 2
              · simp only [hf2, if_true] at hnone ⊢
                by_cases hw2 : wire % 8 ≠ 2
                · simp [hw2]
                · simp only [hw2, if_false] at hnone ⊢
                  cases hrv2 : readVarint rest with
                  | error e2 => rfl
                  | ok q =>
                    obtain ⟨v, rest2⟩ := q
                    rw [hrv2] at hnone
                    have h2 := readVarint_consumes _ _ _ hrv2
                    simp only at hnone ⊢
                    by_cases hneg : toInt64 v < 0
                    · simp [hneg]
                    · simp only [hneg, if_false] at hnone ⊢
                      by_cases hov2 : 2 ^ 63 ≤ l2 - rest2.length + (toInt64 v).toNat
                      · rw [if_pos hov2] at hnone
                        simp at hnone
                      · rw [if_neg hov2] at hnone
                        by_cases hbig : (toInt64 v).toNat > rest2.length
                        · rw [if_pos hbig] at hnone
                          simp at hnone
                        · rw [if_neg hbig] at hnone
                          have hov1 : ¬ (2 ^ 63 ≤ l1 - rest2.length + (toInt64 v).toNat) := by
                            simp at hbig
                            have hr2 : rest2.length ≤ l1 := by
                              simp at hlen hd1
                              omega
                            omega
                          rw [if_neg hov1, if_neg hov2, if_neg hbig, if_neg hbig]
                          cases hI : (unmarshalVersionHistory ⟨[], []⟩
                              (rest2.take (toInt64 v).toNat)).2 with
                          | some e2 => rfl
                          | none =>
                            rw [hI] at hnone
                            simp only at hnone ⊢
                            exact ih l1 l2 _ _ (by simp at hlen hd1 ⊢; omega) hl1
                              (by simp at hlen hd2 ⊢; omega) hl2 hnone
              · simp only [hf2, if_false] at hnone ⊢
                cases hsk : skipMessage (b :: tail) with
                | error e2 => rfl
                | ok skippy =>
                  rw [hsk] at hnone
                  simp only at hnone ⊢
                  by_cases hov2 : 2 ^ 63 ≤ l2 - (b :: tail).length + skippy
                  · rw [if_pos hov2] at hnone
                    simp at hnone
                  · rw [if_neg hov2] at hnone
                    by_cases hbig : skippy > (b :: tail).length
                    · rw [if_pos hbig] at hnone
                      simp at hnone
                    · rw [if_neg hbig] at hnone
                      have hov1 : ¬ (2 ^ 63 ≤ l1 - (b :: tail).length + skippy) := by
                        simp at hbig hd1 ⊢
                        omega
                      rw [if_neg hov1, if_neg hov2, if_neg hbig, if_neg hbig]
                      exact ih l1 l2 m _ (by simp at hd1 ⊢; omega) hl1
                        (by simp at hd2 ⊢; omega) hl2 hnone

/-- Range of a Go `int64` value. -/
abbrev int64Range (x : Int) : Prop := -(2 ^ 63) ≤ x ∧ x < 2 ^ 63

/-- Range of a Go `int32` value. -/
abbrev int32Range (x : Int) : Prop := -(2 ^ 31) ≤ x ∧ x < 2 ^ 31

theorem toUint64_lt (x : Int) : toUint64 x < 2 ^ 64 := by
  unfold toUint64
  omega

theorem toInt64_toUint64 (x : Int) (h : int64Range x) : toInt64 (toUint64 x) = x := by
  unfold int64Range at h
  unfold toInt64 toUint64
  split_ifs <;> omega

theorem toInt32_toUint64 (x : Int) (h : int32Range x) : toInt32 (toUint64 x) = x := by
  unfold int32Range at h
  unfold toInt32 toUint64
  split_ifs <;> omega

theorem toInt64_of_lt (n : Nat) (h : n < 2 ^ 63) : toInt64 n = n := by
  unfold toInt64
  rw [Nat.mod_eq_of_lt (by omega), if_pos (by omega)]

theorem putUvarint_le10 (v : Nat) (h : v < 2 ^ 64) : (putUvarint v).length ≤ 10 := by
  rw [putUvarint_length]
  unfold sovMessage
  have hlt : v ||| 1 < 2 ^ 64 := Nat.or_lt_two_pow h (by norm_num)
  have hne : v ||| 1 ≠ 0 := by
    rw [lor_one_eq]
    split <;> omega
  have : Nat.log2 (v ||| 1) < 64 := (Nat.log2_lt hne).mpr hlt
  omega

theorem marshalVersionHistoryItem_le (it : VersionHistoryItem) :
    (marshalVersionHistoryItem it).length ≤ 22 := by
  unfold marshalVersionHistoryItem
  have b1 := putUvarint_le10 (toUint64 it.eventId) (toUint64_lt _)
  have b2 := putUvarint_le10 (toUint64 it.version) (toUint64_lt _)
  split_ifs <;> simp <;> omega

theorem unmarshalVersionHistoryItem_varint1 (m : VersionHistoryItem) (v : Nat)
    (rest : List Nat) (hv : v < 2 ^ 64)
    (hfull : 1 + (putUvarint v).length + rest.length < 2 ^ 63)
    (hcont : (unmarshalVersionHistoryItem { m with eventId := toInt64 v } rest).2 = none) :
    unmarshalVersionHistoryItem m (0x08 :: (putUvarint v ++ rest)) =
    unmarshalVersionHistoryItem { m with eventId := toInt64 v } rest := by
  have h8 : readVarint ((0x08 : Nat) :: (putUvarint v ++ rest)) =
      .ok (8, putUvarint v ++ rest) := by
    have h := readVarint_putUvarint 8 (putUvarint v ++ rest) (by norm_num)
    exact h
  unfold unmarshalVersionHistoryItem
  conv_lhs => rw [show ((0x08 : Nat) :: (putUvarint v ++ rest)).length =
    (putUvarint v).length + rest.length + 1 by simp]
  rw [unmarshalVersionHistoryItemAux, h8]
  have e1 : toInt32 ((8 : Nat) >>> 3) = 1 := by decide
  have e0 : (8 : Nat) % 8 = 0 := by norm_num
  simp only [e0, e1]
  norm_num
  rw [readVarint_putUvarint v rest hv]
  simp only
  have hfe := unmarshalVersionHistoryItemAux_fuel_eq
    ((putUvarint v).length + rest.length + 1) (rest.length + 1)
    ((putUvarint v).length + rest.length + 1) { m with eventId := toInt64 v } rest
    (by omega) (by omega)
  rw [hfe]
  exact unmarshalVersionHistoryItemAux_l_irrel (rest.length + 1)
    ((putUvarint v).length + rest.length + 1) rest.length { m with eventId := toInt64 v } rest
    (by omega) (by omega) (by omega) (by omega) hcont

theorem unmarshalVersionHistoryItem_varint2 (m : VersionHistoryItem) (v : Nat)
    (rest : List Nat) (hv : v < 2 ^ 64)
    (hfull : 1 + (putUvarint v).length + rest.length < 2 ^ 63)
    (hcont : (unmarshalVersionHistoryItem { m with version := toInt64 v } rest).2 = none) :
    unmarshalVersionHistoryItem m (0x10 :: (putUvarint v ++ rest)) =
    unmarshalVersionHistoryItem { m with version := toInt64 v } rest := by
  have h16 : readVarint ((0x10 : Nat) :: (putUvarint v ++ rest)) =
      .ok (16, putUvarint v ++ rest) := by
    have h := readVarint_putUvarint 16 (putUvarint v ++ rest) (by norm_num)
    exact h
  unfold unmarshalVersionHistoryItem
  conv_lhs => rw [show ((0x10 : Nat) :: (putUvarint v ++ rest)).length =
    (putUvarint v).length + rest.length + 1 by simp]
  rw [unmarshalVersionHistoryItemAux, h16]
  have e1 : toInt32 ((16 : Nat) >>> 3) = 2 := by decide
  have e0 : (16 : Nat) % 8 = 0 := by norm_num
  simp only [e0, e1]
  norm_num
  rw [readVarint_putUvarint v rest hv]
  simp only
  have hfe := unmarshalVersionHistoryItemAux_fuel_eq
    ((putUvarint v).length + rest.length + 1) (rest.length + 1)
    ((putUvarint v).length + rest.length + 1) { m with version := toInt64 v } rest
    (by omega) (by omega)
  rw [hfe]
  exact unmarshalVersionHistoryItemAux_l_irrel (rest.length + 1)
    ((putUvarint v).length + rest.length + 1) rest.length { m with version := toInt64 v } rest
    (by omega) (by omega) (by omega) (by omega) hcont

theorem unmarshalVersionHistoryItem_marshal (m : VersionHistoryItem)
    (h1 : int64Range m.eventId) (h2 : int64Range m.version) :
    unmarshalVersionHistoryItem ⟨0, 0⟩ (marshalVersionHistoryItem m) = (m, none) := by
  obtain ⟨e, v⟩ := m
  simp only at h1 h2
  have hb1 := putUvarint_le10 (toUint64 e) (toUint64_lt e)
  have hb2 := putUvarint_le10 (toUint64 v) (toUint64_lt v)
  unfold marshalVersionHistoryItem
  simp only
  by_cases he : e = 0 <;> by_cases hv : v = 0
  · simp [he, hv]
    rfl
  · simp only [he, hv, ne_eq, not_true_eq_false, if_false, not_false_eq_true, if_true,
      List.nil_append]
    rw [show (0x10 : Nat) :: putUvarint (toUint64 v) =
      0x10 :: (putUvarint (toUint64 v) ++ []) by simp]
    rw [unmarshalVersionHistoryItem_varint2 _ _ _ (toUint64_lt v) (by simp; omega) (by rfl)]
    rw [toInt64_toUint64 v h2]
    rfl
  · simp only [he, hv, ne_eq, not_false_eq_true, if_true, not_true_eq_false, if_false,
      List.append_nil]
    rw [show (0x08 : Nat) :: putUvarint (toUint64 e) =
      0x08 :: (putUvarint (toUint64 e) ++ []) by simp]
    rw [unmarshalVersionHistoryItem_varint1 _ _ _ (toUint64_lt e) (by simp; omega) (by rfl)]
    rw [toInt64_toUint64 e h1]
    rfl
  · simp only [he, hv, ne_eq, not_false_eq_true, if_true, List.cons_append]
    rw [show (0x10 : Nat) :: putUvarint (toUint64 v) =
      0x10 :: (putUvarint (toUint64 v) ++ []) by simp]
    rw [unmarshalVersionHistoryItem_varint1 _ _ _ (toUint64_lt e) (by simp; omega)
      (by rw [unmarshalVersionHistoryItem_varint2 _ _ _ (toUint64_lt v)
        (by simp; omega) (by rfl)]; rfl)]
    rw [toInt64_toUint64 e h1]
    rw [unmarshalVersionHistoryItem_varint2 _ _ _ (toUint64_lt v) (by simp; omega) (by rfl)]
    rw [toInt64_toUint64 v h2]
    rfl

theorem unmarshalVersionHistory_token (m : VersionHistory) (bt rest : List Nat)
    (hlen : bt.length < 2 ^ 63)
    (hfull : 1 + (putUvarint bt.length).length + bt.length + rest.length < 2 ^ 63)
    (hcont : (unmarshalVersionHistory { m with branchToken := bt } rest).2 = none) :
    unmarshalVersionHistory m (0x0A :: (putUvarint bt.length ++ (bt ++ rest))) =
    unmarshalVersionHistory { m with branchToken := bt } rest := by
  have h10 : readVarint ((0x0A : Nat) :: (putUvarint bt.length ++ (bt ++ rest))) =
      .ok (10, putUvarint bt.length ++ (bt ++ rest)) :=
    readVarint_putUvarint 10 _ (by norm_num)
  unfold unmarshalVersionHistory
  conv_lhs => rw [show ((0x0A : Nat) :: (putUvarint bt.length ++ (bt ++ rest))).length =
    (putUvarint bt.length).length + (bt.length + rest.length) + 1 by simp]
  rw [unmarshalVersionHistoryAux, h10]
  have e1 : toInt32 ((10 : Nat) >>> 3) = 1 := by decide
  have e0 : (10 : Nat) % 8 = 2 := by norm_num
  simp only [e0, e1]
  norm_num
  rw [readVarint_putUvarint bt.length _ (by omega)]
  simp only [toInt64_of_lt bt.length hlen, Int.toNat_natCast]
  rw [if_neg (by omega)]
  rw [if_neg (by simp; omega)]
  rw [if_neg (by simp)]
  rw [List.take_left' rfl, List.drop_left' rfl]
  have hfe := unmarshalVersionHistoryAux_fuel_eq
    ((putUvarint bt.length).length + (bt.length + rest.length) + 1) (rest.length + 1)
    ((putUvarint bt.length).length + (bt.length + rest.length) + 1)
    { m with branchToken := bt } rest (by omega) (by omega)
  rw [hfe]
  exact unmarshalVersionHistoryAux_l_irrel (rest.length + 1)
    ((putUvarint bt.length).length + (bt.length + rest.length) + 1) rest.length
    { m with branchToken := bt } rest (by omega) (by omega) (by omega) (by omega) hcont

theorem unmarshalVersionHistory_entry (m : VersionHistory) (seg rest : List Nat)
    (it : VersionHistoryItem) (hseg : seg.length < 2 ^ 63)
    (hfull : 1 + (putUvarint seg.length).length + seg.length + rest.length < 2 ^ 63)
    (hinner : unmarshalVersionHistoryItem ⟨0, 0⟩ seg = (it, none))
    (hcont : (unmarshalVersionHistory { m with items := m.items ++ [it] } rest).2 = none) :
    unmarshalVersionHistory m (0x12 :: (putUvarint seg.length ++ (seg ++ rest))) =
    unmarshalVersionHistory { m with items := m.items ++ [it] } rest := by
  have h18 : readVarint ((0x12 : Nat) :: (putUvarint seg.length ++ (seg ++ rest))) =
      .ok (18, putUvarint seg.length ++ (seg ++ rest)) :=
    readVarint_putUvarint 18 _ (by norm_num)
  unfold unmarshalVersionHistory
  conv_lhs => rw [show ((0x12 : Nat) :: (putUvarint seg.length ++ (seg ++ rest))).length =
    (putUvarint seg.length).length + (seg.length + rest.length) + 1 by simp]
  rw [unmarshalVersionHistoryAux, h18]
  have e1 : toInt32 ((18 : Nat) >>> 3) = 2 := by decide
  have e0 : (18 : Nat) % 8 = 2 := by norm_num
  simp only [e0, e1]
  norm_num
  rw [readVarint_putUvarint seg.length _ (by omega)]
  simp only [toInt64_of_lt seg.length hseg, Int.toNat_natCast]
  rw [if_neg (by omega)]
  rw [if_neg (by simp; omega)]
  rw [if_neg (by simp)]
  rw [List.take_left' rfl, List.drop_left' rfl]
  rw [hinner]
  simp only
  have hfe := unmarshalVersionHistoryAux_fuel_eq
    ((putUvarint seg.length).length + (seg.length + rest.length) + 1) (rest.length + 1)
    ((putUvarint seg.length).length + (seg.length + rest.length) + 1)
    { m with items := m.items ++ [it] } rest (by omega) (by omega)
  rw [hfe]
  exact unmarshalVersionHistoryAux_l_irrel (rest.length + 1)
    ((putUvarint seg.length).length + (seg.length + rest.length) + 1) rest.length
    { m with items := m.items ++ [it] } rest (by omega) (by omega) (by omega) (by omega) hcont

theorem unmarshalVersionHistory_items (its : List VersionHistoryItem) :
    ∀ m : VersionHistory,
    (∀ it ∈ its, int64Range it.eventId ∧ int64Range it.version) →
    ((its.map (fun it => 0x12 :: (putUvarint (marshalVersionHistoryItem it).length ++
      marshalVersionHistoryItem it))).flatten).length < 2 ^ 63 →
    unmarshalVersionHistory m
      (its.map (fun it => 0x12 :: (putUvarint (marshalVersionHistoryItem it).length ++
        marshalVersionHistoryItem it))).flatten =
    ({ m with items := m.items ++ its }, none) := by
  induction its with
  | nil =>
    intro m _ _
    simp only [List.map_nil, List.flatten_nil, List.append_nil]
    rfl
  | cons it its ih =>
    intro m hra hbuf
    simp only [List.map_cons, List.flatten_cons, List.cons_append, List.append_assoc] at hbuf ⊢
    simp only [List.length_cons, List.length_append] at hbuf
    have hseg : (marshalVersionHistoryItem it).length < 2 ^ 63 := by
      have := marshalVersionHistoryItem_le it
      omega
    have hit := hra it (List.mem_cons_self _ _)
    have hrec := ih { m with items := m.items ++ [it] }
      (fun x hx => hra x (List.mem_cons_of_mem _ hx)) (by omega)
    rw [unmarshalVersionHistory_entry m _ _ it hseg (by omega)
      (unmarshalVersionHistoryItem_marshal it hit.1 hit.2) (by rw [hrec])]
    rw [hrec]
    simp [List.append_assoc]

theorem unmarshalVersionHistory_marshal (h : VersionHistory)
    (hra : ∀ it ∈ h.items, int64Range it.eventId ∧ int64Range it.version)
    (htk : h.branchToken.length < 2 ^ 63)
    (hml : (marshalVersionHistory h).length < 2 ^ 63) :
    unmarshalVersionHistory ⟨[], []⟩ (marshalVersionHistory h) = (h, none) := by
  obtain ⟨bt, its⟩ := h
  simp only at hra htk hml
  unfold marshalVersionHistory at hml ⊢
  simp only at hml ⊢
  by_cases hbt : bt.length > 0
  · simp only [hbt, if_true, List.cons_append, List.append_assoc] at hml ⊢
    simp only [List.length_cons, List.length_append] at hml
    have hitems := unmarshalVersionHistory_items its
      { branchToken := bt, items := [] } hra (by omega)
    rw [unmarshalVersionHistory_token _ _ _ htk (by omega) (by rw [hitems])]
    rw [hitems]
    simp
  · simp only [hbt, if_false, List.nil_append] at hml ⊢
    have hbt0 : bt = [] := by
      cases bt with
      | nil => rfl
      | cons x xs => simp at hbt
    subst hbt0
    rw [unmarshalVersionHistory_items its _ hra hml]
    simp

theorem unmarshalVersionHistories_index (m : VersionHistories) (v : Nat)
    (rest : List Nat) (hv : v < 2 ^ 64)
    (hfull : 1 + (putUvarint v).length + rest.length < 2 ^ 63)
    (hcont : (unmarshalVersionHistories
      { m with currentVersionHistoryIndex := toInt32 v } rest).2 = none) :
    unmarshalVersionHistories m (0x08 :: (putUvarint v ++ rest)) =
    unmarshalVersionHistories { m with currentVersionHistoryIndex := toInt32 v } rest := by
  have h8 : readVarint ((0x08 : Nat) :: (putUvarint v ++ rest)) =
      .ok (8, putUvarint v ++ rest) := readVarint_putUvarint 8 _ (by norm_num)
  unfold unmarshalVersionHistories
  conv_lhs => rw [show ((0x08 : Nat) :: (putUvarint v ++ rest)).length =
    (putUvarint v).length + rest.length + 1 by simp]
  rw [unmarshalVersionHistoriesAux, h8]
  have e1 : toInt32 ((8 : Nat) >>> 3) = 1 := by decide
  have e0 : (8 : Nat) % 8 = 0 := by norm_num
  simp only [e0, e1]
  norm_num
  rw [readVarint_putUvarint v rest hv]
  simp only
  have hfe := unmarshalVersionHistoriesAux_fuel_eq
    ((putUvarint v).length + rest.length + 1) (rest.length + 1)
    ((putUvarint v).length + rest.length + 1)
    { m with currentVersionHistoryIndex := toInt32 v } rest (by omega) (by omega)
  rw [hfe]
  exact unmarshalVersionHistoriesAux_l_irrel (rest.length + 1)
    ((putUvarint v).length + rest.length + 1) rest.length
    { m with currentVersionHistoryIndex := toInt32 v } rest
    (by omega) (by omega) (by omega) (by omega) hcont

theorem unmarshalVersionHistories_entry (m : VersionHistories) (seg rest : List Nat)
    (h : VersionHistory) (hseg : seg.length < 2 ^ 63)
    (hfull : 1 + (putUvarint seg.length).length + seg.length + rest.length < 2 ^ 63)
    (hinner : unmarshalVersionHistory ⟨[], []⟩ seg = (h, none))
    (hcont : (unmarshalVersionHistories
      { m with histories := m.histories ++ [h] } rest).2 = none) :
    unmarshalVersionHistories m (0x12 :: (putUvarint seg.length ++ (seg ++ rest))) =
    unmarshalVersionHistories { m with histories := m.histories ++ [h] } rest := by
  have h18 : readVarint ((0x12 : Nat) :: (putUvarint seg.length ++ (seg ++ rest))) =
      .ok (18, putUvarint seg.length ++ (seg ++ rest)) :=
    readVarint_putUvarint 18 _ (by norm_num)
  unfold unmarshalVersionHistories
  conv_lhs => rw [show ((0x12 : Nat) :: (putUvarint seg.length ++ (seg ++ rest))).length =
    (putUvarint seg.length).length + (seg.length + rest.length) + 1 by simp]
  rw [unmarshalVersionHistoriesAux, h18]
  have e1 : toInt32 ((18 : Nat) >>> 3) = 2 := by decide
  have e0 : (18 : Nat) % 8 = 2 := by norm_num
  simp only [e0, e1]
  norm_num
  rw [readVarint_putUvarint seg.length _ (by omega)]
  simp only [toInt64_of_lt seg.length hseg, Int.toNat_natCast]
  rw [if_neg (by omega)]
  rw [if_neg (by simp; omega)]
  rw [if_neg (by simp)]
  rw [List.take_left' rfl, List.drop_left' rfl]
  rw [hinner]
  simp only
  have hfe := unmarshalVersionHistoriesAux_fuel_eq
    ((putUvarint seg.length).length + (seg.length + rest.length) + 1) (rest.length + 1)
    ((putUvarint seg.length).length + (seg.length + rest.length) + 1)
    { m with histories := m.histories ++ [h] } rest (by omega) (by omega)
  rw [hfe]
  exact unmarshalVersionHistoriesAux_l_irrel (rest.length + 1)
    ((putUvarint seg.length).length + (seg.length + rest.length) + 1) rest.length
    { m with histories := m.histories ++ [h] } rest (by omega) (by omega) (by omega)
    (by omega) hcont

theorem unmarshalVersionHistories_list (hs : List VersionHistory) :
    ∀ m : VersionHistories,
    (∀ h ∈ hs, (∀ it ∈ h.items, int64Range it.eventId ∧ int64Range it.version) ∧
      h.branchToken.length < 2 ^ 63 ∧ (marshalVersionHistory h).length < 2 ^ 63) →
    ((hs.map (fun h => 0x12 :: (putUvarint (marshalVersionHistory h).length ++
      marshalVersionHistory h))).flatten).length < 2 ^ 63 →
    unmarshalVersionHistories m
      (hs.map (fun h => 0x12 :: (putUvarint (marshalVersionHistory h).length ++
        marshalVersionHistory h))).flatten =
    ({ m with histories := m.histories ++ hs }, none) := by
  induction hs with
  | nil =>
    intro m _ _
    simp only [List.map_nil, List.flatten_nil, List.append_nil]
    rfl
  | cons h hs ih =>
    intro m hra hbuf
    simp only [List.map_cons, List.flatten_cons, List.cons_append, List.append_assoc] at hbuf ⊢
    simp only [List.length_cons, List.length_append] at hbuf
    have hh := hra h (List.mem_cons_self _ _)
    have hrec := ih { m with histories := m.histories ++ [h] }
      (fun x hx => hra x (List.mem_cons_of_mem _ hx)) (by omega)
    rw [unmarshalVersionHistories_entry m _ _ h hh.2.2 (by omega)
      (unmarshalVersionHistory_marshal h hh.1 hh.2.1 hh.2.2) (by rw [hrec])]
    rw [hrec]
    simp [List.append_assoc]

theorem equalVersionHistoryItem_refl (a : VersionHistoryItem) :
    equalVersionHistoryItem a a = true := by
  simp [equalVersionHistoryItem]

theorem zip_self_all_equalItem (l : List VersionHistoryItem) :
    (l.zip l).all (fun p => equalVersionHistoryItem p.1 p.2) = true := by
  induction l with
  | nil => rfl
  | cons x xs ih => simp [List.zip_cons_cons, equalVersionHistoryItem_refl, ih]

theorem equalVersionHistory_refl (a : VersionHistory) : equalVersionHistory a a = true := by
  unfold equalVersionHistory
  simp [zip_self_all_equalItem]

theorem zip_self_all_equalHistory (l : List VersionHistory) :
    (l.zip l).all (fun p => equalVersionHistory p.1 p.2) = true := by
  induction l with
  | nil => rfl
  | cons x xs ih => simp [List.zip_cons_cons, equalVersionHistory_refl, ih]

theorem equalVersionHistories_refl (a : VersionHistories) :
    equalVersionHistories a a = true := by
  unfold equalVersionHistories
  simp [zip_self_all_equalHistory]

theorem sizeVersionHistory_token_le (h : VersionHistory) :
    h.branchToken.length ≤ sizeVersionHistory h := by
  unfold sizeVersionHistory
  split_ifs with hbt
  · omega
  · omega

theorem sizeVersionHistory_mem_le (v : VersionHistories) (h : VersionHistory)
    (hm : h ∈ v.histories) : sizeVersionHistory h ≤ sizeVersionHistories v := by
  unfold sizeVersionHistories
  have hmem : (1 + sizeVersionHistory h + sovMessage (sizeVersionHistory h)) ∈
      v.histories.map (fun e => 1 + sizeVersionHistory e + sovMessage (sizeVersionHistory e)) :=
    List.mem_map_of_mem _ hm
  have := List.single_le_sum (fun (x : Nat) _ => Nat.zero_le x) _ hmem
  omega

/-- C1: for every valid `VersionHistories` value (current index in range,
items of every branch strictly increasing in eventId and version, fields
within their Go integer ranges, and total `Size()` within the Go `int`
range — the last two are implicit for any Go value), decoding the bytes
produced by `Marshal` into a fresh receiver succeeds and yields a value
that the generated `Equal` reports structurally equal to the original. -/
theorem roundtrip_versionHistories (v : VersionHistories)
    (hidx0 : 0 ≤ v.currentVersionHistoryIndex)
    (hidxlt : v.currentVersionHistoryIndex < (v.histories.length : Int))
    (hidx32 : v.currentVersionHistoryIndex < 2 ^ 31)
    (hmono : ∀ h ∈ v.histories,
      h.items.Pairwise (fun a b => a.eventId < b.eventId ∧ a.version < b.version))
    (hrange : ∀ h ∈ v.histories, ∀ it ∈ h.items, int64Range it.eventId ∧ int64Range it.version)
    (hsz : sizeVersionHistories v < 2 ^ 63) :
    (unmarshalVersionHistories ⟨0, []⟩ (marshalVersionHistories v)).2 = none ∧
    equalVersionHistories (unmarshalVersionHistories ⟨0, []⟩ (marshalVersionHistories v)).1 v
      = true := by
  have hmain : unmarshalVersionHistories ⟨0, []⟩ (marshalVersionHistories v) = (v, none) := by
    have hcond : ∀ h ∈ v.histories,
        (∀ it ∈ h.items, int64Range it.eventId ∧ int64Range it.version) ∧
        h.branchToken.length < 2 ^ 63 ∧ (marshalVersionHistory h).length < 2 ^ 63 := by
      intro h hm
      refine ⟨hrange h hm, ?_, ?_⟩
      · have t1 := sizeVersionHistory_token_le h
        have t2 := sizeVersionHistory_mem_le v h hm
        omega
      · rw [marshalVersionHistory_length]
        have t2 := sizeVersionHistory_mem_le v h hm
        omega
    have hml1 : (marshalVersionHistories v).length < 2 ^ 63 := by
      rw [marshalVersionHistories_length]
      exact hsz
    obtain ⟨ci, hs⟩ := v
    simp only at hidx0 hidxlt hidx32 hsz hcond hml1 ⊢
    unfold marshalVersionHistories at hml1 ⊢
    simp only at hml1 ⊢
    by_cases hci : ci = 0
    · subst hci
      simp only [ne_eq, not_true_eq_false, if_false, List.nil_append] at hml1 ⊢
      rw [unmarshalVersionHistories_list hs _ hcond hml1]
      simp
    · simp only [ne_eq, hci, not_false_eq_true, if_true, List.cons_append] at hml1 ⊢
      simp only [List.length_cons, List.length_append] at hml1
      rw [unmarshalVersionHistories_index _ _ _ (toUint64_lt ci) (by omega)
        (by rw [unmarshalVersionHistories_list hs _ hcond (by omega)])]
      rw [toInt32_toUint64 ci ⟨by omega, hidx32⟩]
      rw [unmarshalVersionHistories_list hs _ hcond (by omega)]
      simp
  rw [hmain]
  exact ⟨rfl, equalVersionHistories_refl v⟩

/-- Witness for C1 at a concrete valid two-branch value. -/
theorem roundtrip_versionHistories_witness :
    (unmarshalVersionHistories ⟨0, []⟩ (marshalVersionHistories
      ⟨1, [⟨[7], [⟨1, 5⟩]⟩, ⟨[], [⟨2, 6⟩, ⟨3, 7⟩]⟩]⟩)).2 = none ∧
    equalVersionHistories
      (unmarshalVersionHistories ⟨0, []⟩ (marshalVersionHistories
        ⟨1, [⟨[7], [⟨1, 5⟩]⟩, ⟨[], [⟨2, 6⟩, ⟨3, 7⟩]⟩]⟩)).1
      ⟨1, [⟨[7], [⟨1, 5⟩]⟩, ⟨[], [⟨2, 6⟩, ⟨3, 7⟩]⟩]⟩ = true := by
  have hsz : sizeVersionHistories ⟨1, [⟨[7], [⟨1, 5⟩]⟩, ⟨[], [⟨2, 6⟩, ⟨3, 7⟩]⟩]⟩ < 2 ^ 63 := by
    rw [← marshalVersionHistories_length]
    decide
  exact roundtrip_versionHistories _ (by decide) (by decide) (by decide)
    (by decide) (by decide) hsz

theorem unmarshalVersionHistoryAux_items_prefix :
    ∀ (fuel l : Nat) (m : VersionHistory) (data : List Nat),
    ∃ extra, ((unmarshalVersionHistoryAux fuel l m data).1).items = m.items ++ extra := by
  intro fuel
  induction fuel with
  | zero => intro l m data; exact ⟨[], by simp [unmarshalVersionHistoryAux]⟩
  | succ fuel ih =>
    intro l m data
    cases data with
    | nil => exact ⟨[], by simp [unmarshalVersionHistoryAux]⟩
    | cons b tail =>
      simp only [unmarshalVersionHistoryAux]
      cases hrv : readVarint (b :: tail) with
      | error e => exact ⟨[], by simp⟩
      | ok p =>
        obtain ⟨wire, rest⟩ := p
        simp only
        by_cases h4 : wire % 8 = 4
        · exact ⟨[], by simp [h4]⟩
        · simp only [h4, if_false]
          by_cases ht : toInt32 (wire >>> 3) ≤ 0
          · exact ⟨[], by simp [ht]⟩
          · simp only [ht, if_false]
            by_cases hf1 : toInt32 (wire >>> 3) = 1
            · simp only [hf1, if_true]
              by_cases hw2 : wire % 8 ≠ 2
              · exact ⟨[], by simp [hw2]⟩
              · simp only [hw2, if_false]
                cases hrv2 : readVarint rest with
                | error e2 => exact ⟨[], by simp⟩
                | ok q =>
                  obtain ⟨v, rest2⟩ := q
                  simp only
                  by_cases hneg : toInt64 v < 0
                  · exact ⟨[], by simp [hneg]⟩
                  · simp only [hneg, if_false]
                    by_cases hov : 2 ^ 63 ≤ l - rest2.length + (toInt64 v).toNat
                    · exact ⟨[], by simp only [hov, if_true]; simp⟩
                    · simp only [hov, if_false]
                      by_cases hbig : (toInt64 v).toNat > rest2.length
                      · exact ⟨[], by simp [hbig]⟩
                      · simp only [hbig, if_false]
                        exact ih _ _ _
            · simp only [hf1, if_false]
              by_cases hf2 : toInt32 (wire >>> 3) = 2
              · simp only [hf2, if_true]
                by_cases hw2 : wire % 8 ≠ 2
                · exact ⟨[], by simp [hw2]⟩
                · simp only [hw2, if_false]
                  cases hrv2 : readVarint rest with
                  | error e2 => exact ⟨[], by simp⟩
                  | ok q =>
                    obtain ⟨v, rest2⟩ := q
                    simp only
                    by_cases hneg : toInt64 v < 0
                    · exact ⟨[], by simp [hneg]⟩
                    · simp only [hneg, if_false]
                      by_cases hov : 2 ^ 63 ≤ l - rest2.length + (toInt64 v).toNat
                      · exact ⟨[], by simp only [hov, if_true]; simp⟩
                      · simp only [hov, if_false]
                        by_cases hbig : (toInt64 v).toNat > rest2.length
                        · exact ⟨[], by simp [hbig]⟩
                        · simp only [hbig, if_false]
                          cases hI : (unmarshalVersionHistoryItem ⟨0, 0⟩
                              (rest2.take (toInt64 v).toNat)).2 with
                          | some e2 =>
                            exact ⟨[(unmarshalVersionHistoryItem ⟨0, 0⟩
                              (rest2.take (toInt64 v).toNat)).1], by simp⟩
                          | none =>
                            obtain ⟨ex2, hex2⟩ := ih l
                              { m with items := m.items ++
                                [(unmarshalVersionHistoryItem ⟨0, 0⟩
                                  (rest2.take (toInt64 v).toNat)).1] }
                              (rest2.drop (toInt64 v).toNat)
                            refine ⟨[(unmarshalVersionHistoryItem ⟨0, 0⟩
                              (rest2.take (toInt64 v).toNat)).1] ++ ex2, ?_⟩
                            rw [hex2]
                            simp
              · simp only [hf2, if_false]
                cases hsk : skipMessage (b :: tail) with
                | error e2 => exact ⟨[], by simp⟩
                | ok skippy =>
                  simp only
                  by_cases hov : 2 ^ 63 ≤ l - (b :: tail).length + skippy
                  · exact ⟨[], by simp only [hov, if_true]; simp⟩
                  · simp only [hov, if_false]
                    by_cases hbig : tail.length + 1 < skippy
                    · exact ⟨[], by simp [hbig]⟩
                    · simp only [hbig, if_false, gt_iff_lt, List.length_cons]
                      exact ih _ _ _

theorem unmarshalVersionHistoriesAux_histories_prefix :
    ∀ (fuel l : Nat) (m : VersionHistories) (data : List Nat),
    ∃ extra,
      ((unmarshalVersionHistoriesAux fuel l m data).1).histories = m.histories ++ extra := by
  intro fuel
  induction fuel with
  | zero => intro l m data; exact ⟨[], by simp [unmarshalVersionHistoriesAux]⟩
  | succ fuel ih =>
    intro l m data
    cases data with
    | nil => exact ⟨[], by simp [unmarshalVersionHistoriesAux]⟩
    | cons b tail =>
      simp only [unmarshalVersionHistoriesAux]
      cases hrv : readVarint (b :: tail) with
      | error e => exact ⟨[], by simp⟩
      | ok p =>
        obtain ⟨wire, rest⟩ := p
        simp only
        by_cases h4 : wire % 8 = 4
        · exact ⟨[], by simp [h4]⟩
        · simp only [h4, if_false]
          by_cases ht : toInt32 (wire >>> 3) ≤ 0
          · exact ⟨[], by simp [ht]⟩
          · simp only [ht, if_false]
            by_cases hf1 : toInt32 (wire >>> 3) = 1
            · simp only [hf1, if_true]
              by_cases hw0 : wire % 8 ≠ 0
              · exact ⟨[], by simp [hw0]⟩
              · simp only [hw0, if_false]
                cases hrv2 : readVarint rest with
                | error e2 => exact ⟨[], by simp⟩
                | ok q =>
                  obtain ⟨v, rest2⟩ := q
                  exact ih _ _ _
            · simp only [hf1, if_false]
              by_cases hf2 : toInt32 (wire >>> 3) = 2
              · simp only [hf2, if_true]
                by_cases hw2 : wire % 8 ≠ 2
                · exact ⟨[], by simp [hw2]⟩
                · simp only [hw2, if_false]
                  cases hrv2 : readVarint rest with
                  | error e2 => exact ⟨[], by simp⟩
                  | ok q =>
                    obtain ⟨v, rest2⟩ := q
                    simp only
                    by_cases hneg : toInt64 v < 0
                    · exact ⟨[], by simp [hneg]⟩
                    · simp only [hneg, if_false]
                      by_cases hov : 2 ^ 63 ≤ l - rest2.length + (toInt64 v).toNat
                      · exact ⟨[], by simp only [hov, if_true]; simp⟩
                      · simp only [hov, if_false]
                        by_cases hbig : (toInt64 v).toNat > rest2.length
                        · exact ⟨[], by simp [hbig]⟩
                        · simp only [hbig, if_false]
                          cases hI : (unmarshalVersionHistory ⟨[], []⟩
                              (rest2.take (toInt64 v).toNat)).2 with
                          | some e2 =>
                            exact ⟨[(unmarshalVersionHistory ⟨[], []⟩
                              (rest2.take (toInt64 v).toNat)).1], by simp⟩
                          | none =>
                            obtain ⟨ex2, hex2⟩ := ih l
                              { m with histories := m.histories ++
                                [(unmarshalVersionHistory ⟨[], []⟩
                                  (rest2.take (toInt64 v).toNat)).1] }
                              (rest2.drop (toInt64 v).toNat)
                            refine ⟨[(unmarshalVersionHistory ⟨[], []⟩
                              (rest2.take (toInt64 v).toNat)).1] ++ ex2, ?_⟩
                            rw [hex2]
                            simp
              · simp only [hf2, if_false]
                cases hsk : skipMessage (b :: tail) with
                | error e2 => exact ⟨[], by simp⟩
                | ok skippy =>
                  simp only
                  by_cases hov : 2 ^ 63 ≤ l - (b :: tail).length + skippy
                  · exact ⟨[], by simp only [hov, if_true]; simp⟩
                  · simp only [hov, if_false]
                    by_cases hbig : tail.length + 1 < skippy
                    · exact ⟨[], by simp [hbig]⟩
                    · simp only [hbig, if_false, gt_iff_lt, List.length_cons]
                      exact ih _ _ _

/-- C2 counterexample: decoding `[0x12, 0x00, 0x12]` into a fresh
`VersionHistory` first appends the item decoded from the empty first
entry, then fails with unexpected EOF reading the second entry length,
leaving the receiver holding one item — not the pre-call receiver. -/
theorem unmarshal_error_receiver_mutated_cex :
    unmarshalVersionHistory ⟨[], []⟩ [0x12, 0x00, 0x12] =
      (⟨[], [⟨0, 0⟩]⟩, some .eof) ∧
    (⟨[], [⟨0, 0⟩]⟩ : VersionHistory) ≠ ⟨[], []⟩ := by
  constructor
  · decide
  · decide

/-- C2 amended: when decoding fails, the error is reported to the caller
together with the partially mutated receiver (the generated code decodes
in place, so no atomicity holds); the mutation is limited in shape: the
elements a repeated field held before the call are always preserved as a
prefix, with decode only appending (possibly partially decoded) elements. -/
theorem unmarshal_error_prefix_preserved :
    (∀ (m : VersionHistory) (data : List Nat), ∃ extra,
      ((unmarshalVersionHistory m data).1).items = m.items ++ extra) ∧
    (∀ (m : VersionHistories) (data : List Nat), ∃ extra,
      ((unmarshalVersionHistories m data).1).histories = m.histories ++ extra) :=
  ⟨fun m data => unmarshalVersionHistoryAux_items_prefix _ _ m data,
   fun m data => unmarshalVersionHistoriesAux_histories_prefix _ _ m data⟩

theorem toInt32_of_lt (n : Nat) (h : n < 2 ^ 31) : toInt32 n = n := by
  unfold toInt32
  rw [Nat.mod_eq_of_lt (by omega), if_pos (by omega)]

/-- C5: decoding never reorders or deduplicates repeated fields: on a
well-formed buffer — the entry payload decodes cleanly and the rest of
the buffer decodes cleanly after it — each length-delimited field 2 wire
entry appends exactly one element, the decode of its payload, at the end
of `Items` (respectively `Histories`), and decoding then continues with
the rest of the buffer exactly as if it were a fresh buffer, so elements
appear in exactly wire order with duplicates preserved (the two buffer
bounds are implicit for any Go slice). -/
theorem repeated_fields_in_order :
    (∀ (m : VersionHistory) (seg rest : List Nat) (it : VersionHistoryItem),
      seg.length < 2 ^ 63 →
      1 + (putUvarint seg.length).length + seg.length + rest.length < 2 ^ 63 →
      unmarshalVersionHistoryItem ⟨0, 0⟩ seg = (it, none) →
      (unmarshalVersionHistory { m with items := m.items ++ [it] } rest).2 = none →
      unmarshalVersionHistory m (0x12 :: (putUvarint seg.length ++ (seg ++ rest))) =
        unmarshalVersionHistory { m with items := m.items ++ [it] } rest) ∧
    (∀ (m : VersionHistories) (seg rest : List Nat) (h : VersionHistory),
      seg.length < 2 ^ 63 →
      1 + (putUvarint seg.length).length + seg.length + rest.length < 2 ^ 63 →
      unmarshalVersionHistory ⟨[], []⟩ seg = (h, none) →
      (unmarshalVersionHistories { m with histories := m.histories ++ [h] } rest).2 = none →
      unmarshalVersionHistories m (0x12 :: (putUvarint seg.length ++ (seg ++ rest))) =
        unmarshalVersionHistories { m with histories := m.histories ++ [h] } rest) :=
  ⟨fun m seg rest it hseg hfull hit hcont =>
    unmarshalVersionHistory_entry m seg rest it hseg hfull hit hcont,
   fun m seg rest h hseg hfull hh hcont =>
    unmarshalVersionHistories_entry m seg rest h hseg hfull hh hcont⟩

/-- Witness for C5 at the empty payload entry `[0x12, 0x00]`. -/
theorem repeated_fields_in_order_witness :
    unmarshalVersionHistory ⟨[], []⟩
        (0x12 :: (putUvarint (List.length ([] : List Nat)) ++ ([] ++ []))) =
      unmarshalVersionHistory ⟨[], [⟨0, 0⟩]⟩ [] ∧
    unmarshalVersionHistories ⟨0, []⟩
        (0x12 :: (putUvarint (List.length ([] : List Nat)) ++ ([] ++ []))) =
      unmarshalVersionHistories ⟨0, [⟨[], []⟩]⟩ [] :=
  ⟨repeated_fields_in_order.1 ⟨[], []⟩ [] [] ⟨0, 0⟩ (by decide) (by decide) (by decide)
    (by decide),
   repeated_fields_in_order.2 ⟨0, []⟩ [] [] ⟨[], []⟩ (by decide) (by decide) (by decide)
    (by decide)⟩

theorem putUvarint_ne_nil (v : Nat) : putUvarint v ≠ [] := by
  rw [putUvarint_unfold]
  split <;> simp

/-- C4: an encoded field with a field number unknown to
`VersionHistories` (any number `3` or above, with a legal wire type) is
skipped by the default branch of `Unmarshal` via `skipMessage`, and on an
otherwise well-formed buffer — the rest decodes cleanly — decoding
continues exactly as if the unknown field were absent; unknown fields
therefore never cause rejection of an otherwise well-formed buffer (the
buffer bound is implicit for any Go slice). -/
theorem unknown_field_skipped (m : VersionHistories) (f w : Nat) (payload rest : List Nat)
    (hf3 : 3 ≤ f) (hf32 : f < 2 ^ 28) (hw : w < 8) (hw4 : w ≠ 4)
    (hlen : (putUvarint (8 * f + w)).length + payload.length + rest.length < 2 ^ 63)
    (hskip : skipMessage (putUvarint (8 * f + w) ++ (payload ++ rest)) =
      .ok ((putUvarint (8 * f + w)).length + payload.length))
    (hcont : (unmarshalVersionHistories m rest).2 = none) :
    unmarshalVersionHistories m (putUvarint (8 * f + w) ++ (payload ++ rest)) =
      unmarshalVersionHistories m rest := by
  have hwire : 8 * f + w < 2 ^ 64 := by
    have : (2 : Nat) ^ 28 ≤ 2 ^ 61 := Nat.pow_le_pow_right (by norm_num) (by norm_num)
    omega
  have hrv : readVarint (putUvarint (8 * f + w) ++ (payload ++ rest)) =
      .ok (8 * f + w, payload ++ rest) := readVarint_putUvarint _ _ hwire
  have hshift : (8 * f + w) >>> 3 = f := by
    rw [Nat.shiftRight_eq_div_pow]
    omega
  have hmod : (8 * f + w) % 8 = w := by omega
  have hfld : toInt32 ((8 * f + w) >>> 3) = (f : Int) := by
    rw [hshift]
    exact toInt32_of_lt f (by omega)
  cases hpu : putUvarint (8 * f + w) with
  | nil => exact absurd hpu (putUvarint_ne_nil _)
  | cons p ptail =>
    rw [hpu] at hrv hskip hlen
    rw [List.cons_append] at hrv hskip ⊢
    unfold unmarshalVersionHistories
    conv_lhs => rw [show (p :: (ptail ++ (payload ++ rest))).length =
      ptail.length + (payload.length + rest.length) + 1 by simp]
    rw [unmarshalVersionHistoriesAux, hrv]
    simp only [hfld, hmod]
    rw [if_neg hw4, if_neg (by omega), if_neg (by omega), if_neg (by omega)]
    rw [hskip]
    simp only [gt_iff_lt]
    rw [if_neg (by simp at hlen ⊢; omega)]
    rw [if_neg (by simp at hlen ⊢; omega)]
    have hdrop : List.drop ((p :: ptail).length + payload.length)
        (p :: (ptail ++ (payload ++ rest))) = rest := by
      rw [show p :: (ptail ++ (payload ++ rest)) = ((p :: ptail) ++ payload) ++ rest by simp]
      rw [List.drop_left' (by simp; omega)]
    rw [hdrop]
    have hfe := unmarshalVersionHistoriesAux_fuel_eq
      (ptail.length + (payload.length + rest.length) + 1) (rest.length + 1)
      (ptail.length + (payload.length + rest.length) + 1) m rest (by omega) (by omega)
    rw [hfe]
    exact unmarshalVersionHistoriesAux_l_irrel (rest.length + 1)
      (ptail.length + (payload.length + rest.length) + 1) rest.length m rest
      (by omega) (by simp at hlen; omega) (by omega) (by simp at hlen; omega) hcont

/-- Witness for C4: field number 3, wire type 0, varint payload `7`. -/
theorem unknown_field_skipped_witness :
    unmarshalVersionHistories ⟨0, []⟩ (putUvarint (8 * 3 + 0) ++ ([7] ++ [])) =
      unmarshalVersionHistories ⟨0, []⟩ [] :=
  unknown_field_skipped ⟨0, []⟩ 3 0 [7] [] (by decide) (by decide) (by decide) (by decide)
    (by decide) (by rfl) (by rfl)

/-- C6: malformed inputs abort decoding with the matching error: a varint
continuing past 64 bits of significance gives `ErrIntOverflowMessage`
(shown on `VersionHistoryItem`); a length prefix that is negative as an
`int64` gives `ErrInvalidLengthMessage` (shown on `VersionHistory` and
`VersionHistories`); a non-negative length prefix whose declared end
overflows the 64-bit index (`postIndex < 0` in the source) also gives
`ErrInvalidLengthMessage`, taking precedence over truncation; and a
buffer truncated before a declared, non-overflowing field end gives
`io.ErrUnexpectedEOF` (both shown on `VersionHistory`); no value is
returned in any of these cases. -/
theorem malformed_input_rejected :
    (∀ (m : VersionHistoryItem) (rest : List Nat),
      unmarshalVersionHistoryItem m (0x08 :: (List.replicate 10 0x80 ++ rest)) =
        ({ m with eventId := 0 }, some .intOverflow)) ∧
    (∀ (m : VersionHistory) (rest : List Nat),
      unmarshalVersionHistory m (0x0A :: (putUvarint (2 ^ 64 - 1) ++ rest)) =
        (m, some .invalidLength)) ∧
    (∀ (m : VersionHistory) (n : Nat) (rest : List Nat),
      n < 2 ^ 63 → 2 ^ 63 ≤ 1 + (putUvarint n).length + n →
      unmarshalVersionHistory m (0x0A :: (putUvarint n ++ rest)) =
        (m, some .invalidLength)) ∧
    (∀ (m : VersionHistory) (n : Nat) (rest : List Nat),
      rest.length < n → 1 + (putUvarint n).length + n < 2 ^ 63 →
      unmarshalVersionHistory m (0x0A :: (putUvarint n ++ rest)) = (m, some .eof)) ∧
    (∀ (m : VersionHistories) (rest : List Nat),
      unmarshalVersionHistories m (0x12 :: (putUvarint (2 ^ 64 - 1) ++ rest)) =
        (m, some .invalidLength)) := by
  refine ⟨?_, ?_, ?_, ?_, ?_⟩
  · intro m rest
    have h8 : readVarint ((0x08 : Nat) :: (List.replicate 10 0x80 ++ rest)) =
        .ok (8, List.replicate 10 0x80 ++ rest) := by
      have h := readVarint_putUvarint 8 (List.replicate 10 0x80 ++ rest) (by norm_num)
      exact h
    have hov : readVarint (List.replicate 10 0x80 ++ rest) = .error (.intOverflow, 0) := by
      show readVarintAux 0 0 _ = _
      norm_num [List.replicate, readVarintAux, Nat.zero_shiftLeft]
      cases rest with
      | nil => norm_num [readVarintAux]
      | cons c cs => norm_num [readVarintAux]
    unfold unmarshalVersionHistoryItem
    conv_lhs => rw [show ((0x08 : Nat) :: (List.replicate 10 0x80 ++ rest)).length =
      10 + rest.length + 1 by simp; omega]
    rw [unmarshalVersionHistoryItemAux, h8]
    have e1 : toInt32 ((8 : Nat) >>> 3) = 1 := by decide
    have e0 : (8 : Nat) % 8 = 0 := by norm_num
    simp only [e0, e1]
    norm_num
    rw [hov]
    norm_num [toInt64]
  · intro m rest
    have h10 : readVarint ((0x0A : Nat) :: (putUvarint (2 ^ 64 - 1) ++ rest)) =
        .ok (10, putUvarint (2 ^ 64 - 1) ++ rest) := by
      have h := readVarint_putUvarint 10 (putUvarint (2 ^ 64 - 1) ++ rest) (by norm_num)
      exact h
    unfold unmarshalVersionHistory
    conv_lhs => rw [show ((0x0A : Nat) :: (putUvarint (2 ^ 64 - 1) ++ rest)).length =
      (putUvarint (2 ^ 64 - 1)).length + rest.length + 1 by simp]
    rw [unmarshalVersionHistoryAux, h10]
    have e1 : toInt32 ((10 : Nat) >>> 3) = 1 := by decide
    have e0 : (10 : Nat) % 8 = 2 := by norm_num
    simp only [e0, e1]
    norm_num
    rw [readVarint_putUvarint _ _ (by norm_num)]
    have hneg : toInt64 (2 ^ 64 - 1) = -1 := by decide
    simp only [show (2 : Nat) ^ 64 - 1 = 18446744073709551615 by norm_num] at hneg
    simp only [hneg]
    norm_num
  · intro m n rest hn hov
    have h10 : readVarint ((0x0A : Nat) :: (putUvarint n ++ rest)) =
        .ok (10, putUvarint n ++ rest) := by
      have h := readVarint_putUvarint 10 (putUvarint n ++ rest) (by norm_num)
      exact h
    unfold unmarshalVersionHistory
    conv_lhs => rw [show ((0x0A : Nat) :: (putUvarint n ++ rest)).length =
      (putUvarint n).length + rest.length + 1 by simp]
    rw [unmarshalVersionHistoryAux, h10]
    have e1 : toInt32 ((10 : Nat) >>> 3) = 1 := by decide
    have e0 : (10 : Nat) % 8 = 2 := by norm_num
    simp only [e0, e1]
    norm_num
    rw [readVarint_putUvarint _ _ (by omega)]
    simp only [toInt64_of_lt n hn, Int.toNat_natCast]
    rw [if_neg (by omega)]
    rw [if_pos (by omega)]
  · intro m n rest hlen hbound
    have hn : n < 2 ^ 63 := by omega
    have h10 : readVarint ((0x0A : Nat) :: (putUvarint n ++ rest)) =
        .ok (10, putUvarint n ++ rest) := by
      have h := readVarint_putUvarint 10 (putUvarint n ++ rest) (by norm_num)
      exact h
    unfold unmarshalVersionHistory
    conv_lhs => rw [show ((0x0A : Nat) :: (putUvarint n ++ rest)).length =
      (putUvarint n).length + rest.length + 1 by simp]
    rw [unmarshalVersionHistoryAux, h10]
    have e1 : toInt32 ((10 : Nat) >>> 3) = 1 := by decide
    have e0 : (10 : Nat) % 8 = 2 := by norm_num
    simp only [e0, e1]
    norm_num
    rw [readVarint_putUvarint _ _ (by omega)]
    simp only [toInt64_of_lt n hn, Int.toNat_natCast]
    rw [if_neg (by omega)]
    rw [if_neg (by omega)]
    rw [if_pos (by omega)]
  · intro m rest
    have h18 : readVarint ((0x12 : Nat) :: (putUvarint (2 ^ 64 - 1) ++ rest)) =
        .ok (18, putUvarint (2 ^ 64 - 1) ++ rest) := by
      have h := readVarint_putUvarint 18 (putUvarint (2 ^ 64 - 1) ++ rest) (by norm_num)
      exact h
    unfold unmarshalVersionHistories
    conv_lhs => rw [show ((0x12 : Nat) :: (putUvarint (2 ^ 64 - 1) ++ rest)).length =
      (putUvarint (2 ^ 64 - 1)).length + rest.length + 1 by simp]
    rw [unmarshalVersionHistoriesAux, h18]
    have e1 : toInt32 ((18 : Nat) >>> 3) = 2 := by decide
    have e0 : (18 : Nat) % 8 = 2 := by norm_num
    simp only [e0, e1]
    norm_num
    rw [readVarint_putUvarint _ _ (by norm_num)]
    have hneg : toInt64 (2 ^ 64 - 1) = -1 := by decide
    simp only [show (2 : Nat) ^ 64 - 1 = 18446744073709551615 by norm_num] at hneg
    simp only [hneg]
    norm_num

/-- Witness for C6: the truncated buffer `[0x0A, 0x03, 0x00]` (declared
token length 3, only one byte left) gives unexpected EOF, and the same
shape with declared length `2^63 - 1` overflows the 64-bit end index and
gives the invalid-length error instead. -/
theorem malformed_input_rejected_witness :
    unmarshalVersionHistory ⟨[], []⟩ (0x0A :: (putUvarint 3 ++ [0])) =
      (⟨[], []⟩, some DecodeErr.eof) ∧
    unmarshalVersionHistory ⟨[], []⟩ (0x0A :: (putUvarint (2 ^ 63 - 1) ++ [0])) =
      (⟨[], []⟩, some DecodeErr.invalidLength) :=
  ⟨malformed_input_rejected.2.2.2.1 ⟨[], []⟩ 3 [0] (by decide) (by decide),
   malformed_input_rejected.2.2.1 ⟨[], []⟩ (2 ^ 63 - 1) [0] (by norm_num)
    (by have := putUvarint_le10 (2 ^ 63 - 1) (by norm_num); omega)⟩

/-- Modelled from the spec: error taxonomy of the version-history layer
(`InvalidHistoryError`, `ConflictResolutionError`); the data-model and
reconciler code is not part of the given sources, so it is modelled from
the spec text. -/
inductive HistoryErr where
  | invalidHistory
  | conflictResolution
deriving DecidableEq, Repr

/-- Modelled from the spec: which version covers event `e` in a branch.
Per §4.1 `Append` (which extends coverage by replacing the last item's
eventId) an item `{eventId, version}` covers the events after the
previous item's boundary up to and including its own eventId; `prev`
carries the previous boundary, starting at `0` (event ids are
1-based). -/
def coverAux (prev : Int) (b : List VersionHistoryItem) (e : Int) : Option Int :=
  match b with
  | [] => none
  | x :: rest => if prev < e ∧ e ≤ x.eventId then some x.version else coverAux x.eventId rest e

/-- Modelled from the spec: `Contains(eventId, version)` — the branch, at
`eventId`, was written under exactly `version`, computed by locating the
covering item and comparing versions. -/
def containsItem (b : List VersionHistoryItem) (it : VersionHistoryItem) : Bool :=
  coverAux 0 b it.eventId == some it.version

/-- Modelled from the spec: the items on which two branches agree via
`Contains`, drawn from either item sequence. -/
def lcaCandidates (a b : List VersionHistoryItem) : List VersionHistoryItem :=
  (a ++ b).filter fun x => containsItem a x && containsItem b x

/-- Fold step selecting the candidate with the greatest eventId, keeping
the earlier one on ties. -/
def pickMax (acc : Option VersionHistoryItem) (x : VersionHistoryItem) :
    Option VersionHistoryItem :=
  match acc with
  | none => some x
  | some y => if y.eventId < x.eventId then some x else some y

/-- Modelled from the spec: `FindLCA` — the item with the greatest
eventId that both branches agree on via `Contains`, or `none` when the
branches share no agreement. -/
def findLCA (a b : List VersionHistoryItem) : Option VersionHistoryItem :=
  (lcaCandidates a b).foldl pickMax none

/-- Fold step for `FindBestAncestor`: keep the branch whose LCA has the
strictly greatest eventId (ties keep the lowest index). -/
def pickBest (inc : List VersionHistoryItem) (acc : Option (Nat × VersionHistoryItem))
    (p : Nat × List VersionHistoryItem) : Option (Nat × VersionHistoryItem) :=
  match findLCA p.2 inc with
  | none => acc
  | some lca =>
    match acc with
    | none => some (p.1, lca)
    | some (j, best) => if best.eventId < lca.eventId then some (p.1, lca) else some (j, best)

/-- Modelled from the spec: `FindBestAncestor(incoming)` — compute
`FindLCA` against every branch and select the branch maximizing the LCA
eventId, ties broken by lowest branch index. -/
def bestAncestor (bs : List (List VersionHistoryItem)) (inc : List VersionHistoryItem) :
    Option (Nat × VersionHistoryItem) :=
  bs.enum.foldl (pickBest inc) none

/-- Modelled from the spec: whether a branch has events beyond the LCA
boundary (its last item's eventId is past the LCA's). -/
def hasEventsBeyond (b : List VersionHistoryItem) (lca : VersionHistoryItem) : Bool :=
  match b.getLast? with
  | some x => lca.eventId < x.eventId
  | none => false

/-- Modelled from the spec: the items of a branch strictly beyond the LCA
boundary. -/
def itemsBeyond (b : List VersionHistoryItem) (lca : VersionHistoryItem) :
    List VersionHistoryItem :=
  b.filter fun x => lca.eventId < x.eventId

/-- Modelled from the spec: the items of a branch up to and including the
LCA boundary. -/
def itemsUpTo (b : List VersionHistoryItem) (lca : VersionHistoryItem) :
    List VersionHistoryItem :=
  b.filter fun x => x.eventId ≤ lca.eventId

/-- Modelled from the spec: `Append(eventId, version)` on a branch's item
sequence — with an unchanged version the last item's eventId is replaced
(no growth), with a strictly greater version a new item is appended;
a non-increasing eventId, a decreasing version, or an empty branch fails
with `InvalidHistoryError`. The branch is a value, so a failure returns
only the error and the caller's sequence is unchanged by construction. -/
def appendItem (b : List VersionHistoryItem) (it : VersionHistoryItem) :
    Except HistoryErr (List VersionHistoryItem) :=
  match b.getLast? with
  | none => .error .invalidHistory
  | some last =>
    if it.eventId ≤ last.eventId then .error .invalidHistory
    else if it.version < last.version then .error .invalidHistory
    else if it.version = last.version then .ok (b.dropLast ++ [⟨it.eventId, last.version⟩])
    else .ok (b ++ [it])

/-- Modelled from the spec: appending a sequence of items in order
(used by the Reconciler's Extend outcome). -/
def extendAll (b : List VersionHistoryItem) :
    List VersionHistoryItem → Except HistoryErr (List VersionHistoryItem)
  | [] => .ok b
  | x :: rest =>
    match appendItem b x with
    | .error e => .error e
    | .ok b2 => extendAll b2 rest

/-- Modelled from the spec: the branch set of one execution — an ordered
sequence of branches (each an item sequence) plus the current index. -/
structure BranchSet where
  branches : List (List VersionHistoryItem)
  currentIndex : Nat
deriving DecidableEq, Repr

/-- Modelled from the spec: the Reconciler's resolution decision. -/
inductive Decision where
  | NoOp
  | Extend
  | Fork
  | Reject
deriving DecidableEq, Repr

/-- Modelled from the spec (§4.3): the Branch Reconciler. Computes the
best ancestor branch, then decides by which sides have events beyond the
LCA: neither — `NoOp` (incoming fully represented); only the local
branch — `NoOp` (incoming is a strict ancestor); only the incoming —
`Extend` (append incoming's items beyond the LCA onto the local branch
in place, through `Append`); both — compare the versions of the first
divergent items: a greater incoming version forks a new branch (local
items up to the LCA plus incoming items beyond it) which becomes
current; a greater local version rejects the incoming; equal divergent
versions are a `ConflictResolutionError`. No shared agreement at all is
an `InvalidHistoryError`. -/
def reconcile (s : BranchSet) (inc : List VersionHistoryItem) :
    Except HistoryErr (Decision × BranchSet) :=
  match bestAncestor s.branches inc with
  | none => .error .invalidHistory
  | some (i, lca) =>
    let localB := s.branches.getD i []
    if hasEventsBeyond localB lca then
      if hasEventsBeyond inc lca then
        match (itemsBeyond localB lca).head?, (itemsBeyond inc lca).head? with
        | some dl, some di =>
          if dl.version < di.version then
            .ok (.Fork,
              ⟨s.branches ++ [itemsUpTo localB lca ++ itemsBeyond inc lca],
               s.branches.length⟩)
          else if di.version < dl.version then .ok (.Reject, s)
          else .error .conflictResolution
        | _, _ => .error .invalidHistory
      else .ok (.NoOp, s)
    else
      if hasEventsBeyond inc lca then
        match extendAll localB (itemsBeyond inc lca) with
        | .error e => .error e
        | .ok newB => .ok (.Extend, ⟨s.branches.set i newB, s.currentIndex⟩)
      else .ok (.NoOp, s)

/-- C8: on a non-empty branch, `Append` with an eventId not strictly
greater than the last item's, or with a version strictly less than the
last item's, fails with `InvalidHistoryError`; the branch value is a pure
input, so the failure returns only the error and the caller's item
sequence is unchanged. -/
theorem append_invalid (b : List VersionHistoryItem) (it last : VersionHistoryItem)
    (hlast : b.getLast? = some last)
    (hbad : it.eventId ≤ last.eventId ∨ it.version < last.version) :
    appendItem b it = .error .invalidHistory := by
  unfold appendItem
  simp only [hlast]
  by_cases h1 : it.eventId ≤ last.eventId
  · rw [if_pos h1]
  · rcases hbad with h | h
    · exact absurd h h1
    · rw [if_neg h1, if_pos h]

/-- Witness for C8: appending `(4,1)` after `(5,1)` fails. -/
theorem append_invalid_witness :
    appendItem [⟨5, 1⟩] ⟨4, 1⟩ = .error .invalidHistory :=
  append_invalid [⟨5, 1⟩] ⟨4, 1⟩ ⟨5, 1⟩ (by decide) (by decide)

theorem cover_bound : ∀ (b : List VersionHistoryItem) (p e v : Int),
    coverAux p b e = some v → ∃ x ∈ b, e ≤ x.eventId := by
  intro b
  induction b with
  | nil => intro p e v h; simp [coverAux] at h
  | cons x rest ih =>
    intro p e v h
    unfold coverAux at h
    split at h
    · exact ⟨x, List.mem_cons_self _ _, by omega⟩
    · obtain ⟨y, hy, hle⟩ := ih _ _ _ h
      exact ⟨y, List.mem_cons_of_mem _ hy, hle⟩

theorem sorted_le_last : ∀ (b : List VersionHistoryItem) (t : VersionHistoryItem),
    b.Pairwise (fun a c => a.eventId < c.eventId) → b.getLast? = some t →
    ∀ x ∈ b, x.eventId ≤ t.eventId := by
  intro b
  induction b with
  | nil => intro t _ h; simp at h
  | cons y ys ih =>
    intro t hp hl x hx
    cases ys with
    | nil =>
      simp at hl hx
      subst hl
      subst hx
      exact le_refl _
    | cons z zs =>
      rw [List.getLast?_cons_cons] at hl
      rcases List.mem_cons.mp hx with rfl | hx2
      · have ht : t ∈ z :: zs := List.mem_of_getLast?_eq_some hl
        have := (List.pairwise_cons.mp hp).1 t ht
        omega
      · exact ih t (List.pairwise_cons.mp hp).2 hl x hx2

theorem contains_le_last (inc : List VersionHistoryItem) (t x : VersionHistoryItem)
    (hs : inc.Pairwise (fun a c => a.eventId < c.eventId))
    (hl : inc.getLast? = some t) (hc : containsItem inc x = true) :
    x.eventId ≤ t.eventId := by
  unfold containsItem at hc
  rw [beq_iff_eq] at hc
  obtain ⟨y, hy, hle⟩ := cover_bound inc 0 x.eventId x.version hc
  have := sorted_le_last inc t hs hl y hy
  omega

theorem cover_last : ∀ (b : List VersionHistoryItem) (p : Int) (t : VersionHistoryItem),
    b.Pairwise (fun a c => a.eventId < c.eventId) → b.getLast? = some t →
    p < t.eventId → coverAux p b t.eventId = some t.version := by
  intro b
  induction b with
  | nil => intro p t _ h; simp at h
  | cons x rest ih =>
    intro p t hp hl hlt
    cases rest with
    | nil =>
      simp at hl
      subst hl
      unfold coverAux
      rw [if_pos ⟨hlt, le_refl _⟩]
    | cons z zs =>
      rw [List.getLast?_cons_cons] at hl
      have ht : t ∈ z :: zs := List.mem_of_getLast?_eq_some hl
      have hxlt : x.eventId < t.eventId := (List.pairwise_cons.mp hp).1 t ht
      unfold coverAux
      rw [if_neg (by omega)]
      exact ih x.eventId t (List.pairwise_cons.mp hp).2 hl hxlt

theorem containsItem_last (b : List VersionHistoryItem) (t : VersionHistoryItem)
    (hp : b.Pairwise (fun a c => a.eventId < c.eventId))
    (hl : b.getLast? = some t) (hpos : 0 < t.eventId) : containsItem b t = true := by
  unfold containsItem
  rw [beq_iff_eq]
  exact cover_last b 0 t hp hl hpos

theorem filter_getLast (p : VersionHistoryItem → Bool) :
    ∀ (l : List VersionHistoryItem) (t : VersionHistoryItem),
    l.getLast? = some t → p t = true → (l.filter p).getLast? = some t := by
  intro l
  induction l with
  | nil => intro t h; simp at h
  | cons x rest ih =>
    intro t hl hpt
    cases rest with
    | nil =>
      simp at hl
      subst hl
      simp [List.filter, hpt]
    | cons z zs =>
      rw [List.getLast?_cons_cons] at hl
      have hrec := ih t hl hpt
      obtain ⟨ys, hys⟩ := List.getLast?_eq_some_iff.mp hrec
      rw [List.filter_cons]
      split
      · rw [hys, show x :: (ys ++ [t]) = (x :: ys) ++ [t] by simp, List.getLast?_concat]
      · exact hrec

theorem pickMax_foldl_some : ∀ (l : List VersionHistoryItem) (a : VersionHistoryItem),
    ∃ y, l.foldl pickMax (some a) = some y := by
  intro l
  induction l with
  | nil => intro a; exact ⟨a, rfl⟩
  | cons x rest ih =>
    intro a
    show ∃ y, rest.foldl pickMax (pickMax (some a) x) = some y
    by_cases hlt : a.eventId < x.eventId
    · rw [show pickMax (some a) x = some x by simp [pickMax, hlt]]
      exact ih x
    · rw [show pickMax (some a) x = some a by simp [pickMax, hlt]]
      exact ih a

theorem findLCA_some_of_mem (a b : List VersionHistoryItem) (x : VersionHistoryItem)
    (hx : x ∈ lcaCandidates a b) : ∃ y, findLCA a b = some y := by
  unfold findLCA
  cases hc : lcaCandidates a b with
  | nil => rw [hc] at hx; simp at hx
  | cons c cs =>
    show ∃ y, cs.foldl pickMax (pickMax none c) = some y
    exact pickMax_foldl_some cs c

theorem pickMax_foldl_mem : ∀ (l : List VersionHistoryItem) (acc : Option VersionHistoryItem)
    (y : VersionHistoryItem), l.foldl pickMax acc = some y → y ∈ l ∨ acc = some y := by
  intro l
  induction l with
  | nil => intro acc y h; exact Or.inr h
  | cons x rest ih =>
    intro acc y h
    rcases ih (pickMax acc x) y h with hy | hy
    · exact Or.inl (List.mem_cons_of_mem _ hy)
    · rcases hma : acc with _ | a0
      · rw [hma] at hy
        simp only [pickMax, Option.some.injEq] at hy
        exact Or.inl (by simp [← hy])
      · rw [hma] at hy
        simp only [pickMax] at hy
        split at hy
        · simp only [Option.some.injEq] at hy
          exact Or.inl (by simp [← hy])
        · exact Or.inr hy

theorem pickMax_foldl_ge : ∀ (l : List VersionHistoryItem) (acc : Option VersionHistoryItem)
    (y : VersionHistoryItem), l.foldl pickMax acc = some y →
    (∀ x ∈ l, x.eventId ≤ y.eventId) ∧
    (∀ a, acc = some a → a.eventId ≤ y.eventId) := by
  intro l
  induction l with
  | nil =>
    intro acc y h
    refine ⟨by simp, ?_⟩
    intro a ha
    rw [ha] at h
    simp at h
    rw [h]
  | cons x rest ih =>
    intro acc y h
    obtain ⟨hrest, hacc⟩ := ih (pickMax acc x) y h
    have hxy : x.eventId ≤ y.eventId ∧ ∀ a, acc = some a → a.eventId ≤ y.eventId := by
      rcases hma : acc with _ | a0
      · subst hma
        refine ⟨hacc x rfl, ?_⟩
        intro a ha
        simp at ha
      · subst hma
        by_cases hlt : a0.eventId < x.eventId
        · have h1 := hacc x (by simp [pickMax, hlt])
          refine ⟨h1, ?_⟩
          intro a ha
          injection ha with ha
          subst ha
          omega
        · have h1 := hacc a0 (by simp [pickMax, hlt])
          refine ⟨by omega, ?_⟩
          intro a ha
          injection ha with ha
          subst ha
          exact h1
    refine ⟨?_, hxy.2⟩
    intro z hz
    rcases List.mem_cons.mp hz with rfl | hz2
    · exact hxy.1
    · exact hrest z hz2

theorem findLCA_mem (a b : List VersionHistoryItem) (y : VersionHistoryItem)
    (h : findLCA a b = some y) : y ∈ lcaCandidates a b := by
  rcases pickMax_foldl_mem _ _ _ h with hy | hy
  · exact hy
  · simp at hy

theorem findLCA_ge (a b : List VersionHistoryItem) (y : VersionHistoryItem)
    (h : findLCA a b = some y) : ∀ x ∈ lcaCandidates a b, x.eventId ≤ y.eventId :=
  (pickMax_foldl_ge _ _ _ h).1

theorem mem_lcaCandidates_iff (a b : List VersionHistoryItem) (x : VersionHistoryItem) :
    x ∈ lcaCandidates a b ↔
    (x ∈ a ∨ x ∈ b) ∧ containsItem a x = true ∧ containsItem b x = true := by
  unfold lcaCandidates
  simp [List.mem_filter, List.mem_append, Bool.and_eq_true]
  tauto

theorem mem_enum_proj (bs : List (List VersionHistoryItem)) (p : Nat × List VersionHistoryItem)
    (hp : p ∈ bs.enum) : p.2 ∈ bs ∧ p.1 < bs.length := by
  rw [List.mem_enum_iff_get?] at hp
  constructor
  · exact List.get?_mem hp
  · exact List.get?_eq_some.mp hp |>.choose

theorem mem_enum_of_mem (bs : List (List VersionHistoryItem)) (b : List VersionHistoryItem)
    (hb : b ∈ bs) : ∃ i, (i, b) ∈ bs.enum := by
  obtain ⟨n, hn⟩ := List.mem_iff_get?.mp hb
  exact ⟨n, List.mem_enum_iff_get?.mpr hn⟩

theorem pickBest_foldl_some (inc : List VersionHistoryItem) :
    ∀ (l : List (Nat × List VersionHistoryItem)) (a : Nat × VersionHistoryItem),
    ∃ y, l.foldl (pickBest inc) (some a) = some y := by
  intro l
  induction l with
  | nil => intro a; exact ⟨a, rfl⟩
  | cons p rest ih =>
    intro a
    show ∃ y, rest.foldl (pickBest inc) (pickBest inc (some a) p) = some y
    rcases hf : findLCA p.2 inc with _ | lca
    · rw [show pickBest inc (some a) p = some a by simp [pickBest, hf]]
      exact ih a
    · rcases a with ⟨j, best⟩
      by_cases hlt : best.eventId < lca.eventId
      · rw [show pickBest inc (some (j, best)) p = some (p.1, lca) by simp [pickBest, hf, hlt]]
        exact ih _
      · rw [show pickBest inc (some (j, best)) p = some (j, best) by simp [pickBest, hf, hlt]]
        exact ih _

theorem pickBest_foldl_some2 (inc : List VersionHistoryItem) :
    ∀ (l : List (Nat × List VersionHistoryItem)) (acc : Option (Nat × VersionHistoryItem)),
    (∃ p ∈ l, ∃ z, findLCA p.2 inc = some z) →
    ∃ y, l.foldl (pickBest inc) acc = some y := by
  intro l
  induction l with
  | nil =>
    intro acc h
    obtain ⟨p, hp, _⟩ := h
    simp at hp
  | cons p rest ih =>
    intro acc h
    show ∃ y, rest.foldl (pickBest inc) (pickBest inc acc p) = some y
    obtain ⟨q, hq, z, hz⟩ := h
    rcases List.mem_cons.mp hq with rfl | hq2
    · rcases acc with _ | a
      · rw [show pickBest inc none q = some (q.1, z) by simp [pickBest, hz]]
        exact pickBest_foldl_some inc rest _
      · rcases a with ⟨j, best⟩
        by_cases hlt : best.eventId < z.eventId
        · rw [show pickBest inc (some (j, best)) q = some (q.1, z) by simp [pickBest, hz, hlt]]
          exact pickBest_foldl_some inc rest _
        · rw [show pickBest inc (some (j, best)) q = some (j, best) by simp [pickBest, hz, hlt]]
          exact pickBest_foldl_some inc rest _
    · exact ih _ ⟨q, hq2, z, hz⟩

theorem pickBest_foldl_inv (inc : List VersionHistoryItem) :
    ∀ (l : List (Nat × List VersionHistoryItem)) (acc : Option (Nat × VersionHistoryItem))
    (i : Nat) (lca : VersionHistoryItem), l.foldl (pickBest inc) acc = some (i, lca) →
    ((∃ p ∈ l, p.1 = i ∧ findLCA p.2 inc = some lca) ∨ acc = some (i, lca)) ∧
    (∀ p ∈ l, ∀ z, findLCA p.2 inc = some z → z.eventId ≤ lca.eventId) ∧
    (∀ j a, acc = some (j, a) → a.eventId ≤ lca.eventId) := by
  intro l
  induction l with
  | nil =>
    intro acc i lca h
    refine ⟨Or.inr h, by simp, ?_⟩
    intro j a ha
    rw [ha] at h
    simp at h
    rw [h.2]
  | cons p rest ih =>
    intro acc i lca h
    obtain ⟨horig, hrest, haccb⟩ := ih (pickBest inc acc p) i lca h
    have hpk : ∀ r, pickBest inc acc p = r → True := fun _ _ => trivial
    have hstep : (∀ z, findLCA p.2 inc = some z → z.eventId ≤ lca.eventId) ∧
        (∀ j a, acc = some (j, a) → a.eventId ≤ lca.eventId) ∧
        ((∃ q ∈ [p], q.1 = i ∧ findLCA q.2 inc = some lca) ∨ acc = some (i, lca) ∨
          ¬ (pickBest inc acc p = some (i, lca))) := by
      cases hf : findLCA p.2 inc with
      | none =>
        have hpb : pickBest inc acc p = acc := by simp [pickBest, hf]
        refine ⟨by intro z hz; exact absurd hz (by simp), ?_, ?_⟩
        · intro j a ha
          exact haccb j a (by rw [hpb, ha])
        · by_cases hc : pickBest inc acc p = some (i, lca)
          · rw [hpb] at hc
            exact Or.inr (Or.inl hc)
          · exact Or.inr (Or.inr hc)
      | some z =>
        cases acc with
        | none =>
          have hpb : pickBest inc none p = some (p.1, z) := by simp [pickBest, hf]
          have hz := haccb p.1 z hpb
          refine ⟨?_, by intro j a ha; exact absurd ha (by simp), ?_⟩
          · intro z2 hz2
            injection hz2 with hz2
            subst hz2
            exact hz
          · by_cases hc : pickBest inc none p = some (i, lca)
            · rw [hpb] at hc
              injection hc with hc
              rw [Prod.mk.injEq] at hc
              exact Or.inl ⟨p, by simp, hc.1, by rw [hf, hc.2]⟩
            · exact Or.inr (Or.inr hc)
        | some a0 =>
          rcases a0 with ⟨j0, b0⟩
          by_cases hlt : b0.eventId < z.eventId
          · have hpb : pickBest inc (some (j0, b0)) p = some (p.1, z) := by
              simp [pickBest, hf, hlt]
            have hz := haccb p.1 z hpb
            refine ⟨?_, ?_, ?_⟩
            · intro z2 hz2
              injection hz2 with hz2
              subst hz2
              exact hz
            · intro j a ha
              injection ha with ha
              rw [Prod.mk.injEq] at ha
              obtain ⟨_, ha2⟩ := ha
              subst ha2
              omega
            · by_cases hc : pickBest inc (some (j0, b0)) p = some (i, lca)
              · rw [hpb] at hc
                injection hc with hc
                rw [Prod.mk.injEq] at hc
                exact Or.inl ⟨p, by simp, hc.1, by rw [hf, hc.2]⟩
              · exact Or.inr (Or.inr hc)
          · have hpb : pickBest inc (some (j0, b0)) p = some (j0, b0) := by
              simp [pickBest, hf, hlt]
            have hb0 := haccb j0 b0 hpb
            refine ⟨?_, ?_, ?_⟩
            · intro z2 hz2
              injection hz2 with hz2
              subst hz2
              omega
            · intro j a ha
              injection ha with ha
              rw [Prod.mk.injEq] at ha
              obtain ⟨_, ha2⟩ := ha
              subst ha2
              exact hb0
            · by_cases hc : pickBest inc (some (j0, b0)) p = some (i, lca)
              · rw [hpb] at hc
                exact Or.inr (Or.inl hc)
              · exact Or.inr (Or.inr hc)
    refine ⟨?_, ?_, hstep.2.1⟩
    · rcases horig with ⟨q, hq, hq2⟩ | hacc2
      · exact Or.inl ⟨q, List.mem_cons_of_mem _ hq, hq2⟩
      · rcases hstep.2.2 with ⟨q, hq, hq2⟩ | hcase | hcon
        · rcases List.mem_singleton.mp hq with rfl
          exact Or.inl ⟨q, List.mem_cons_self _ _, hq2⟩
        · exact Or.inr hcase
        · exact absurd hacc2 hcon
    · intro q hq z hz
      rcases List.mem_cons.mp hq with rfl | hq2
      · exact hstep.1 z hz
      · exact hrest q hq2 z hz

theorem bestAncestor_inv (bs : List (List VersionHistoryItem)) (inc : List VersionHistoryItem)
    (i : Nat) (lca : VersionHistoryItem) (h : bestAncestor bs inc = some (i, lca)) :
    (∃ b ∈ bs, findLCA b inc = some lca) ∧
    (∀ b ∈ bs, ∀ z, findLCA b inc = some z → z.eventId ≤ lca.eventId) ∧
    i < bs.length := by
  obtain ⟨horig, hmax, _⟩ := pickBest_foldl_inv inc bs.enum none i lca h
  rcases horig with ⟨p, hp, hpi, hpf⟩ | habs
  · obtain ⟨hmem, hlt⟩ := mem_enum_proj bs p hp
    refine ⟨⟨p.2, hmem, hpf⟩, ?_, by omega⟩
    intro b hb z hz
    obtain ⟨ix, hix⟩ := mem_enum_of_mem bs b hb
    exact hmax (ix, b) hix z hz
  · simp at habs

theorem bestAncestor_some (bs : List (List VersionHistoryItem)) (inc : List VersionHistoryItem)
    (b : List VersionHistoryItem) (hb : b ∈ bs) (y : VersionHistoryItem)
    (hy : findLCA b inc = some y) : ∃ r, bestAncestor bs inc = some r := by
  obtain ⟨ix, hix⟩ := mem_enum_of_mem bs b hb
  exact pickBest_foldl_some2 inc bs.enum none ⟨(ix, b), hix, y, hy⟩

theorem appendItem_props (b : List VersionHistoryItem) (it : VersionHistoryItem)
    (b2 : List VersionHistoryItem)
    (hp : b.Pairwise (fun a c => a.eventId < c.eventId))
    (h : appendItem b it = .ok b2) :
    b2.Pairwise (fun a c => a.eventId < c.eventId) ∧ b2.getLast? = some it := by
  unfold appendItem at h
  rcases hl : b.getLast? with _ | last
  · simp [hl] at h
  · simp only [hl] at h
    obtain ⟨ys, hys⟩ := List.getLast?_eq_some_iff.mp hl
    split_ifs at h with h1 h2 h3
    · simp only [Except.ok.injEq] at h
      have hitem : (⟨it.eventId, last.version⟩ : VersionHistoryItem) = it := by
        rw [← h3]
      have hdrop : b.dropLast = ys := by
        rw [hys]
        exact List.dropLast_concat
      subst h
      rw [hdrop, hitem]
      have hcross : ∀ x ∈ ys, x.eventId < it.eventId := by
        intro x hx
        rw [hys] at hp
        have := (List.pairwise_append.mp hp).2.2 x hx last (by simp)
        omega
      refine ⟨?_, List.getLast?_concat _⟩
      rw [List.pairwise_append]
      refine ⟨?_, by simp, ?_⟩
      · rw [hys] at hp
        exact (List.pairwise_append.mp hp).1
      · intro x hx y hy
        rw [List.mem_singleton.mp hy]
        exact hcross x hx
    · simp only [Except.ok.injEq] at h
      subst h
      refine ⟨?_, List.getLast?_concat _⟩
      rw [List.pairwise_append]
      refine ⟨hp, by simp, ?_⟩
      intro x hx y hy
      rw [List.mem_singleton.mp hy]
      rw [hys] at hx
      rcases List.mem_append.mp hx with hx2 | hx2
      · rw [hys] at hp
        have := (List.pairwise_append.mp hp).2.2 x hx2 last (by simp)
        omega
      · rw [List.mem_singleton.mp hx2]
        omega

theorem extendAll_props : ∀ (its b b2 : List VersionHistoryItem),
    b.Pairwise (fun a c => a.eventId < c.eventId) → extendAll b its = .ok b2 →
    b2.Pairwise (fun a c => a.eventId < c.eventId) ∧
    (∀ t, its.getLast? = some t → b2.getLast? = some t) ∧
    (its = [] → b2 = b) := by
  intro its
  induction its with
  | nil =>
    intro b b2 hp h
    simp only [extendAll, Except.ok.injEq] at h
    subst h
    exact ⟨hp, by intro t ht; simp at ht, fun _ => rfl⟩
  | cons x rest ih =>
    intro b b2 hp h
    simp only [extendAll] at h
    rcases ha : appendItem b x with e | b1
    · rw [ha] at h
      simp at h
    · rw [ha] at h
      obtain ⟨hp1, hl1⟩ := appendItem_props b x b1 hp ha
      obtain ⟨hp2, hl2, hnil2⟩ := ih b1 b2 hp1 h
      refine ⟨hp2, ?_, by simp⟩
      intro t ht
      cases rest with
      | nil =>
        simp at ht
        subst ht
        rw [hnil2 rfl]
        exact hl1
      | cons z zs =>
        rw [List.getLast?_cons_cons] at ht
        exact hl2 t ht

theorem hasEventsBeyond_true (b : List VersionHistoryItem) (lca : VersionHistoryItem)
    (h : hasEventsBeyond b lca = true) :
    ∃ x, b.getLast? = some x ∧ lca.eventId < x.eventId := by
  unfold hasEventsBeyond at h
  rcases hgl : b.getLast? with _ | x
  · rw [hgl] at h
    simp at h
  · rw [hgl] at h
    simp at h
    exact ⟨x, rfl, h⟩

theorem getD_mem_of_lt (l : List (List VersionHistoryItem)) (i : Nat) (h : i < l.length) :
    l.getD i [] ∈ l := by
  rw [List.getD_eq_getElem?_getD, List.getElem?_eq_getElem h]
  exact List.getElem_mem _

theorem mem_set_self (l : List (List VersionHistoryItem)) (i : Nat)
    (a : List VersionHistoryItem) (h : i < l.length) : a ∈ l.set i a := by
  exact List.mem_iff_getElem.mpr ⟨i, by simpa using h, List.getElem_set_self _⟩

theorem getLast_append_right (l1 l2 : List VersionHistoryItem) (t : VersionHistoryItem)
    (h : l2.getLast? = some t) : (l1 ++ l2).getLast? = some t := by
  obtain ⟨ys, hys⟩ := List.getLast?_eq_some_iff.mp h
  rw [hys, ← List.append_assoc, List.getLast?_concat]

theorem forkBranch_sorted (localB inc : List VersionHistoryItem) (lca : VersionHistoryItem)
    (hbp : localB.Pairwise (fun a c => a.eventId < c.eventId))
    (hinc : inc.Pairwise (fun a c => a.eventId < c.eventId)) :
    (itemsUpTo localB lca ++ itemsBeyond inc lca).Pairwise
      (fun a c => a.eventId < c.eventId) := by
  unfold itemsUpTo itemsBeyond
  rw [List.pairwise_append]
  refine ⟨hbp.filter _, hinc.filter _, ?_⟩
  intro x hx y hy
  have hx2 := List.of_mem_filter hx
  have hy2 := List.of_mem_filter hy
  simp only [decide_eq_true_eq] at hx2 hy2
  omega

theorem reconcile_after (s : BranchSet) (inc : List VersionHistoryItem)
    (t : VersionHistoryItem) (b : List VersionHistoryItem)
    (hinc : inc.Pairwise (fun a c => a.eventId < c.eventId))
    (hlt : inc.getLast? = some t) (hpos : 0 < t.eventId)
    (hb : b ∈ s.branches)
    (hbp : b.Pairwise (fun a c => a.eventId < c.eventId))
    (hbl : b.getLast? = some t) :
    reconcile s inc = .ok (.NoOp, s) := by
  have hct : containsItem inc t = true := containsItem_last inc t hinc hlt hpos
  have hcb : containsItem b t = true := containsItem_last b t hbp hbl hpos
  have htc : t ∈ lcaCandidates b inc :=
    (mem_lcaCandidates_iff b inc t).mpr ⟨Or.inl (List.mem_of_getLast?_eq_some hbl), hcb, hct⟩
  obtain ⟨y, hy⟩ := findLCA_some_of_mem b inc t htc
  have hty : t.eventId ≤ y.eventId := findLCA_ge b inc y hy t htc
  obtain ⟨r, hr⟩ := bestAncestor_some s.branches inc b hb y hy
  rcases r with ⟨i2, lca2⟩
  have hylca : y.eventId ≤ lca2.eventId :=
    (bestAncestor_inv s.branches inc i2 lca2 hr).2.1 b hb y hy
  have hIfalse : hasEventsBeyond inc lca2 = false := by
    unfold hasEventsBeyond
    rw [hlt]
    simp only [decide_eq_false_iff_not, not_lt]
    omega
  unfold reconcile
  rw [hr]
  simp only
  by_cases hL : hasEventsBeyond (s.branches.getD i2 []) lca2 = true
  · rw [if_pos hL, if_neg (by rw [hIfalse]; exact Bool.false_ne_true)]
  · rw [if_neg hL, if_neg (by rw [hIfalse]; exact Bool.false_ne_true)]

/-- C3 (amended): the Reconciler is idempotent on successful applications
up to the decision it repeats — replaying the incoming branch against the
resulting state leaves the state unchanged and decides `NoOp` when the
first application decided `NoOp`, `Extend` or `Fork`, and decides
`Reject` again (not `NoOp`) when the first application rejected; branch
item sequences are assumed strictly increasing in eventId with positive
event ids. -/
theorem reconcile_replay (s : BranchSet) (inc : List VersionHistoryItem)
    (d : Decision) (s2 : BranchSet)
    (hbr : ∀ b ∈ s.branches, b.Pairwise (fun a c => a.eventId < c.eventId))
    (hinc : inc.Pairwise (fun a c => a.eventId < c.eventId))
    (hpos : ∀ x ∈ inc, 0 < x.eventId)
    (h : reconcile s inc = .ok (d, s2)) :
    reconcile s2 inc = .ok (if d = .Reject then .Reject else .NoOp, s2) := by
  unfold reconcile at h
  rcases hba : bestAncestor s.branches inc with _ | r
  · rw [hba] at h
    simp at h
  · rcases r with ⟨i, lca⟩
    rw [hba] at h
    simp only at h
    have hilen : i < s.branches.length :=
      (bestAncestor_inv s.branches inc i lca hba).2.2
    have hlocp : (s.branches.getD i []).Pairwise (fun a c => a.eventId < c.eventId) :=
      hbr _ (getD_mem_of_lt s.branches i hilen)
    by_cases hL : hasEventsBeyond (s.branches.getD i []) lca = true
    · rw [if_pos hL] at h
      by_cases hI : hasEventsBeyond inc lca = true
      · rw [if_pos hI] at h
        obtain ⟨t, hlt, hlcat⟩ := hasEventsBeyond_true inc lca hI
        rcases hdl : (itemsBeyond (s.branches.getD i []) lca).head? with _ | dl
        · rw [hdl] at h
          simp at h
        · rw [hdl] at h
          rcases hdi : (itemsBeyond inc lca).head? with _ | di
          · rw [hdi] at h
            simp at h
          · rw [hdi] at h
            simp only at h
            by_cases hv1 : dl.version < di.version
            · rw [if_pos hv1] at h
              simp only [Except.ok.injEq, Prod.mk.injEq] at h
              obtain ⟨hd, hs2⟩ := h
              subst hd
              subst hs2
              simp only [reduceCtorEq, if_false]
              have hfb : (itemsBeyond inc lca).getLast? = some t :=
                filter_getLast _ inc t hlt (by simp only [decide_eq_true_eq]; omega)
              exact reconcile_after _ inc t
                (itemsUpTo (s.branches.getD i []) lca ++ itemsBeyond inc lca)
                hinc hlt (hpos t (List.mem_of_getLast?_eq_some hlt))
                (by simp)
                (forkBranch_sorted _ inc lca hlocp hinc)
                (getLast_append_right _ _ t hfb)
            · rw [if_neg hv1] at h
              by_cases hv2 : di.version < dl.version
              · rw [if_pos hv2] at h
                simp only [Except.ok.injEq, Prod.mk.injEq] at h
                obtain ⟨hd, hs2⟩ := h
                subst hd
                subst hs2
                simp only [if_pos rfl]
                unfold reconcile
                rw [hba]
                simp only
                rw [if_pos hL, if_pos hI, hdl, hdi]
                simp only
                rw [if_neg hv1, if_pos hv2]
                simp
              · rw [if_neg hv2] at h
                simp at h
      · rw [if_neg hI] at h
        simp only [Except.ok.injEq, Prod.mk.injEq] at h
        obtain ⟨hd, hs2⟩ := h
        subst hd
        subst hs2
        simp only [reduceCtorEq, if_false]
        unfold reconcile
        rw [hba]
        simp only
        rw [if_pos hL, if_neg hI]
    · rw [if_neg hL] at h
      by_cases hI : hasEventsBeyond inc lca = true
      · rw [if_pos hI] at h
        obtain ⟨t, hlt, hlcat⟩ := hasEventsBeyond_true inc lca hI
        rcases hea : extendAll (s.branches.getD i []) (itemsBeyond inc lca) with e | newB
        · rw [hea] at h
          simp at h
        · rw [hea] at h
          simp only [Except.ok.injEq, Prod.mk.injEq] at h
          obtain ⟨hd, hs2⟩ := h
          subst hd
          subst hs2
          simp only [reduceCtorEq, if_false]
          obtain ⟨hnp, hnl, _⟩ := extendAll_props (itemsBeyond inc lca) _ newB hlocp hea
          have hfb : (itemsBeyond inc lca).getLast? = some t :=
            filter_getLast _ inc t hlt (by simp only [decide_eq_true_eq]; omega)
          exact reconcile_after _ inc t newB hinc hlt
            (hpos t (List.mem_of_getLast?_eq_some hlt))
            (mem_set_self s.branches i newB hilen)
            hnp (hnl t hfb)
      · rw [if_neg hI] at h
        simp only [Except.ok.injEq, Prod.mk.injEq] at h
        obtain ⟨hd, hs2⟩ := h
        subst hd
        subst hs2
        simp only [reduceCtorEq, if_false]
        unfold reconcile
        rw [hba]
        simp only
        rw [if_neg hL, if_neg hI]

/-- Witness for C3: extending branch `[(5,1)]` with incoming
`[(5,1),(8,2)]` succeeds with `Extend`, and replaying the same incoming
against the new state is a `NoOp` with the state unchanged. -/
theorem reconcile_replay_witness :
    reconcile ⟨[[⟨5, 1⟩]], 0⟩ [⟨5, 1⟩, ⟨8, 2⟩] =
      .ok (.Extend, ⟨[[⟨5, 1⟩, ⟨8, 2⟩]], 0⟩) ∧
    reconcile ⟨[[⟨5, 1⟩, ⟨8, 2⟩]], 0⟩ [⟨5, 1⟩, ⟨8, 2⟩] =
      .ok (if Decision.Extend = .Reject then .Reject else .NoOp,
        ⟨[[⟨5, 1⟩, ⟨8, 2⟩]], 0⟩) :=
  ⟨by rfl, reconcile_replay ⟨[[⟨5, 1⟩]], 0⟩ [⟨5, 1⟩, ⟨8, 2⟩] .Extend
    ⟨[[⟨5, 1⟩, ⟨8, 2⟩]], 0⟩ (by decide) (by decide) (by decide) (by rfl)⟩

/-- Counterexample to C3 as stated: with the single branch
`[(5,1),(10,3)]` and the incoming branch `[(5,1),(8,2)]` the Reconciler
rejects the incoming and leaves the state unchanged, so applying it again
to the resulting state produces `Reject` once more — never `NoOp`. -/
theorem reconcile_replay_cex :
    reconcile ⟨[[⟨5, 1⟩, ⟨10, 3⟩]], 0⟩ [⟨5, 1⟩, ⟨8, 2⟩] =
      .ok (.Reject, ⟨[[⟨5, 1⟩, ⟨10, 3⟩]], 0⟩) ∧
    reconcile ⟨[[⟨5, 1⟩, ⟨10, 3⟩]], 0⟩ [⟨5, 1⟩, ⟨8, 2⟩] ≠
      .ok (.NoOp, ⟨[[⟨5, 1⟩, ⟨10, 3⟩]], 0⟩) := by
  refine ⟨by rfl, ?_⟩
  intro h
  rw [show reconcile ⟨[[⟨5, 1⟩, ⟨10, 3⟩]], 0⟩ [⟨5, 1⟩, ⟨8, 2⟩] =
    .ok (.Reject, ⟨[[⟨5, 1⟩, ⟨10, 3⟩]], 0⟩) from rfl] at h
  simp at h
